import Mathlib

/-!
Verification of the drone grid shortest-path solver
(`src/droneviz/solver/solver.cpp`) against its natural-language
specification.

The whole program is one `main` function: it reads a grid of building
heights, a battery capacity `B`, a recharge amount `K` and a set of
recharge stations, then runs a lazy-deletion Dijkstra search over
states `(row, col, battery, altitude)` and prints either the best time
plus a reconstructed path, or `-1` when the destination is unreachable.

The embedding below mirrors the C++ line by line:
* machine integers (`long long`, `int`) become `Int` (no arithmetic in
  the program comes anywhere near the 64-bit range in the scenarios the
  spec quantifies over, and `INF = LLONG_MAX/4` is only ever compared,
  never added to, so `bestTime : Option Int` with `none` for the
  initial `INF` is a faithful rendering);
* `std::map` keyed by the state tuple becomes an association list with
  most-recent-binding-first lookup;
* `std::priority_queue` (a min-heap on `time` with unspecified tie
  order) becomes a list whose pop takes the first element of minimal
  `time`; the spec itself declares the tie-break unspecified, and every
  theorem below either holds for any tie-break or is evaluated on an
  input whose optimal path is unique;
* the `while` loop runs on explicit fuel; `loopF fuel σ = some σ'`
  means the loop reached `pq.empty()` within `fuel` iterations, `none`
  means the fuel ran out first.  All universally quantified theorems
  take termination as a hypothesis and every concrete witness
  terminates by computation;
* `cin >> x` semantics (a failed extraction writes `0` and poisons the
  stream, which on a whitespace-token stream is the same as reading `0`
  forever once tokens run out) is modelled by `read1`.
-/

namespace Drone

/-- The C++ `struct State { ll time; int r, c; ll battery; ll altitude; }`. -/
structure St where
  time : Int
  r : Int
  c : Int
  battery : Int
  altitude : Int
deriving DecidableEq, Repr

/-- The map key `tuple<int,int,ll,ll>`: `(row, col, battery, altitude)`. -/
abbrev Key := Int × Int × Int × Int

/-- The C++ `make_tuple(cur.r, cur.c, cur.battery, cur.altitude)`. -/
def key (s : St) : Key := (s.r, s.c, s.battery, s.altitude)

/-- One record pushed by the reconstruction loop:
`tuple<int,int,ll,ll,ll>` = `(row, col, battery, altitude, time)`. -/
structure PathRec where
  r : Int
  c : Int
  battery : Int
  altitude : Int
  time : Int
deriving DecidableEq, Repr

/-- The parsed input: grid dimensions, battery capacity, recharge
amount, the height matrix and the (already 0-indexed) recharge set. -/
structure Params where
  N : Int
  M : Int
  B : Int
  K : Int
  height : List (List Int)
  recharge : List (Int × Int)
deriving DecidableEq, Repr

/-- Grid access `height[r][c]`.  The C++ only evaluates this after the bounds check
`0 ≤ r < N ∧ 0 ≤ c < M`; out-of-range access is totalised with `0`. -/
def hgt (g : List (List Int)) (r c : Int) : Int :=
  (((g.get? r.toNat).getD []).get? c.toNat).getD 0

/-- The direction list `dirs`: right, left, down, up. -/
def dirs : List (Int × Int) := [(0, 1), (0, -1), (1, 0), (-1, 0)]

/-- Association-list lookup, most recent binding first (mirrors
`std::map` where an insert overwrites the old value). -/
def alookup {α : Type} : List (Key × α) → Key → Option α
  | [], _ => none
  | (k, v) :: rest, k2 => if k2 = k then some v else alookup rest k2

/-- The body of the `for (const auto& d : dirs)` loop up to the point
where the new state is formed: bounds check, base cost `1`
time / `1` battery, the climb rule, the battery check (on the
pre-recharge battery) and finally the recharge rule. -/
def moveTo (P : Params) (cur : St) (d : Int × Int) : Option St :=
  let nr := cur.r + d.1
  let nc := cur.c + d.2
  if nr < 0 ∨ P.N ≤ nr ∨ nc < 0 ∨ P.M ≤ nc then none
  else
    let h := hgt P.height nr nc
    let climb := if cur.altitude < h then h - cur.altitude else 0
    let nt := cur.time + 1 + climb
    let nb := cur.battery - 1 - climb
    let newAlt := if cur.altitude < h then h else cur.altitude
    if nb < 0 then none
    else
      let nb2 := if (nr, nc) ∈ P.recharge then min P.B (nb + P.K) else nb
      some ⟨nt, nr, nc, nb2, newAlt⟩

/-- The search state owned by the `while` loop: the priority queue, the
`dist` map, the `parent` map, and `bestTime`/`bestState` (the C++
initialises `bestTime = INF`; `best = none` renders "never set"). -/
structure SS where
  pq : List St
  dist : List (Key × Int)
  parent : List (Key × Key)
  best : Option (Int × Key)
deriving Repr

/-- The C++ `ll startAlt = height[0][0]`. -/
def startAlt (P : Params) : Int := hgt P.height 0 0

/-- The initial push: note the C++ pushes
`startAlt`, not `0`, as the initial `time`. -/
def initSt (P : Params) : St := ⟨startAlt P, 0, 0, P.B, startAlt P⟩

/-- The state just before the loop: one queue entry and
`dist[(0,0,B,startAlt)] = startAlt`. -/
def initSS (P : Params) : SS :=
  { pq := [initSt P]
    dist := [(key (initSt P), startAlt P)]
    parent := []
    best := none }

/-- Pop an element of minimal `time` (the first such element). -/
def popMin : List St → Option (St × List St)
  | [] => none
  | s :: rest =>
    match popMin rest with
    | none => some (s, [])
    | some (m, rest2) => if s.time ≤ m.time then some (s, rest) else some (m, s :: rest2)

/-- The C++ `dist.count(key) && dist[key] < cur.time` — the lazy-deletion
staleness test. -/
def staleB (dist : List (Key × Int)) (cur : St) : Bool :=
  match alookup dist (key cur) with
  | some dv => dv < cur.time
  | none => false

/-- The C++ best update: if `cur.time < bestTime`, record `cur.time` and the key. -/
def updateBest (b : Option (Int × Key)) (t : Int) (k : Key) : Option (Int × Key) :=
  match b with
  | none => some (t, k)
  | some (bt, bk) => if t < bt then some (t, k) else some (bt, bk)

/-- One direction of the relaxation loop: on a successful move, if the
key is new or improves `dist`, write `dist` and `parent` and push. -/
def relax1 (P : Params) (cur : St) (σ : SS) (d : Int × Int) : SS :=
  match moveTo P cur d with
  | none => σ
  | some ns =>
    let improve :=
      match alookup σ.dist (key ns) with
      | none => true
      | some dv => ns.time < dv
    if improve then
      { σ with
        dist := (key ns, ns.time) :: σ.dist
        parent := (key ns, key cur) :: σ.parent
        pq := σ.pq ++ [ns] }
    else σ

/-- The full `for (const auto& d : dirs)` loop. -/
def relaxAll (P : Params) (cur : St) (σ : SS) : SS :=
  dirs.foldl (relax1 P cur) σ

/-- The loop body after the pop: staleness check, destination check
(which records the best and skips expansion), else relaxation. -/
def processCur (P : Params) (cur : St) (σ : SS) : SS :=
  if staleB σ.dist cur then σ
  else if cur.r = P.N - 1 ∧ cur.c = P.M - 1 then
    { σ with best := updateBest σ.best cur.time (key cur) }
  else relaxAll P cur σ

/-- One iteration of `while (!pq.empty())`; `none` when the queue is
empty and the loop exits. -/
def stepF (P : Params) (σ : SS) : Option SS :=
  match popMin σ.pq with
  | none => none
  | some (cur, rest) => some (processCur P cur { σ with pq := rest })

/-- The `while` loop on fuel; `some σ` = the loop exited normally with
final state `σ`, `none` = out of fuel. -/
def loopF (P : Params) : Nat → SS → Option SS
  | 0, _ => none
  | n + 1, σ =>
    match stepF P σ with
    | none => some σ
    | some σ2 => loopF P n σ2

/-- The reconstruction loop: push `(row, col, battery, altitude,
dist[cur])`, break as soon as `row = 0 ∧ col = 0`, else follow
`parent[cur]` (`std::map::operator[]` value-initialises a missing
entry, hence the `getD` defaults). Produces the path in
destination-to-origin order; `solve` reverses it. -/
def reconstruct (dist : List (Key × Int)) (parent : List (Key × Key)) :
    Nat → Key → Option (List PathRec)
  | 0, _ => none
  | n + 1, cur =>
    let t := (alookup dist cur).getD 0
    let x : PathRec := ⟨cur.1, cur.2.1, cur.2.2.1, cur.2.2.2, t⟩
    if cur.1 = 0 ∧ cur.2.1 = 0 then some [x]
    else
      match reconstruct dist parent n ((alookup parent cur).getD (0, 0, 0, 0)) with
      | none => none
      | some l => some (x :: l)

/-- The observable outcome: `-1` or `time` plus the path. -/
inductive Result where
  | unreachable : Result
  | success (time : Int) (path : List PathRec) : Result
deriving DecidableEq, Repr

/-- The whole solver on parsed input: run the loop from `initSS`, then
either report `-1` or reconstruct and reverse the path. -/
def solve (P : Params) (fuel : Nat) : Option Result :=
  match loopF P fuel (initSS P) with
  | none => none
  | some σ =>
    match σ.best with
    | none => some Result.unreachable
    | some (bt, bk) =>
      match reconstruct σ.dist σ.parent fuel bk with
      | none => none
      | some l => some (Result.success bt l.reverse)

/-- One path record exactly as `main` prints it. -/
def renderRec (x : PathRec) : String :=
  "    \x7b\"row\":" ++ toString x.r ++ ",\"col\":" ++ toString x.c ++
    ",\"battery\":" ++ toString x.battery ++ ",\"altitude\":" ++ toString x.altitude ++
    ",\"time\":" ++ toString x.time ++ "\x7d"

/-- The record list with the trailing-comma logic of the print loop. -/
def renderPath : List PathRec → String
  | [] => ""
  | [x] => renderRec x ++ "\n"
  | x :: y :: rest => renderRec x ++ ",\n" ++ renderPath (y :: rest)

/-- Everything `main` writes to stdout. -/
def render : Result → String
  | Result.unreachable => "-1\n"
  | Result.success t p =>
    "\x7b\n  \"time\": " ++ toString t ++ ",\n  \"path\": [\n" ++
      renderPath p ++ "  ]\n\x7d\n"

/-- One `cin >> x` on a whitespace-token stream: an exhausted stream
yields `0` (C++11 failed extraction value-initialises the target) and
stays exhausted. -/
def read1 : List Int → Int × List Int
  | [] => (0, [])
  | t :: ts => (t, ts)

/-- Some number of consecutive reads. -/
def readK : Nat → List Int → List Int × List Int
  | 0, ts => ([], ts)
  | n + 1, ts =>
    let (v, ts1) := read1 ts
    let (vs, ts2) := readK n ts1
    (v :: vs, ts2)

/-- Split the row-major height values into `n` rows of `m`. -/
def toRows : Nat → Nat → List Int → List (List Int)
  | 0, _, _ => []
  | n + 1, m, vs => vs.take m :: toRows n m (vs.drop m)

/-- The station-reading loop, with the `{r - 1, c - 1}` 1-indexed to
0-indexed shift. -/
def readStations : Nat → List Int → List (Int × Int) × List Int
  | 0, ts => ([], ts)
  | n + 1, ts =>
    let (r, ts1) := read1 ts
    let (c, ts2) := read1 ts1
    let (rest, ts3) := readStations n ts2
    ((r - 1, c - 1) :: rest, ts3)

/-- The whole of `main` on a token stream: `if (!(cin >> N >> M >> B >> K)) return 0;`
prints nothing when fewer than four tokens exist; afterwards every
failed read silently yields `0` and the program carries on.  The
result is the text written to stdout (`none` = out of fuel). -/
def runTokens (tokens : List Int) (fuel : Nat) : Option String :=
  match tokens with
  | n :: m :: b :: k :: rest =>
    let (hs, rest1) := readK (n.toNat * m.toNat) rest
    let g := toRows n.toNat m.toNat hs
    let (s, rest2) := read1 rest1
    let stations := (readStations s.toNat rest2).1
    (solve ⟨n, m, b, k, g, stations⟩ fuel).map render
  | _ => some ""

/-! ### Specification-side vocabulary

Valid battery-respecting paths, stated as an inductive reachability
relation over the very move generator the code uses. -/

/-- State `s` is reachable from `s0` by a sequence of generated moves. -/
inductive ReachesFrom (P : Params) (s0 : St) : St → Prop where
  | refl : ReachesFrom P s0 s0
  | tail {s : St} {d : Int × Int} {ns : St} :
      ReachesFrom P s0 s → d ∈ dirs → moveTo P s d = some ns → ReachesFrom P s0 ns

/-- Reachability from the state the program actually starts in
(battery `B`, altitude `height[0][0]`, initial time `height[0][0]`). -/
def Reaches (P : Params) : St → Prop := ReachesFrom P (initSt P)

/-- The destination test `cur.r == N-1 && cur.c == M-1` on a state. -/
def atDest (P : Params) (s : St) : Prop := s.r = P.N - 1 ∧ s.c = P.M - 1

/-- The destination test on a map key. -/
def atDestK (P : Params) (k : Key) : Prop := k.1 = P.N - 1 ∧ k.2.1 = P.M - 1

/-- Reachability along paths that never leave the destination cell
once entered: every expanded (intermediate) state is a non-destination
state.  The search only relaxes non-destination states, so this is the
class of paths it explores. -/
inductive ReachesND (P : Params) : St → Prop where
  | refl : ReachesND P (initSt P)
  | tail {s : St} {d : Int × Int} {ns : St} :
      ReachesND P s → ¬atDest P s → d ∈ dirs → moveTo P s d = some ns → ReachesND P ns

/-- The move relation on map keys (the resulting key does not depend on
the source's accumulated time). -/
def moveK (P : Params) (k : Key) (d : Int × Int) : Option Key :=
  (moveTo P ⟨0, k.1, k.2.1, k.2.2.1, k.2.2.2⟩ d).map key

/-- Key `p` has an edge to `k`: some direction moves a state with key `p`
to a state with key `k`. -/
def EdgeRel (P : Params) (p k : Key) : Prop :=
  ∃ d ∈ dirs, moveK P p d = some k

/-- The key of a path record. -/
def recKey (x : PathRec) : Key := (x.r, x.c, x.battery, x.altitude)

/-- Rebuild a state from a key and a time. -/
def stOf (t : Int) (k : Key) : St := ⟨t, k.1, k.2.1, k.2.2.1, k.2.2.2⟩

/-! ### Basic lemmas about the queue and the maps -/

theorem popMin_nil : popMin [] = none := rfl

theorem popMin_cons_ne_none (s : St) (rest : List St) : popMin (s :: rest) ≠ none := by
  unfold popMin
  cases h : popMin rest with
  | none => simp
  | some p =>
    obtain ⟨m, rest2⟩ := p
    by_cases hle : s.time ≤ m.time <;> simp [hle]

theorem popMin_eq_none_iff {l : List St} : popMin l = none ↔ l = [] := by
  cases l with
  | nil => simp [popMin]
  | cons s rest => simp [popMin_cons_ne_none]

theorem popMin_perm : ∀ {l : List St} {c : St} {r : List St},
    popMin l = some (c, r) → l.Perm (c :: r) := by
  intro l
  induction l with
  | nil => intro c r h; simp [popMin] at h
  | cons s rest ih =>
    intro c r h
    unfold popMin at h
    cases hrest : popMin rest with
    | none =>
      rw [hrest] at h
      obtain rfl : rest = [] := popMin_eq_none_iff.mp hrest
      simp only [Option.some.injEq, Prod.mk.injEq] at h
      obtain ⟨rfl, rfl⟩ := h
      exact List.Perm.refl _
    | some p =>
      obtain ⟨m, rest2⟩ := p
      rw [hrest] at h
      by_cases hle : s.time ≤ m.time
      · simp only [hle, if_pos] at h
        simp only [Option.some.injEq, Prod.mk.injEq] at h
        obtain ⟨rfl, rfl⟩ := h
        exact List.Perm.refl _
      · simp only [hle, if_neg, if_false] at h
        simp only [Option.some.injEq, Prod.mk.injEq] at h
        obtain ⟨rfl, rfl⟩ := h
        exact ((ih hrest).cons s).trans (List.Perm.swap _ s rest2)

theorem popMin_mem {l : List St} {c : St} {r : List St} (h : popMin l = some (c, r)) :
    c ∈ l :=
  (popMin_perm h).mem_iff.mpr (List.mem_cons_self c r)

theorem popMin_mem_iff {l : List St} {c : St} {r : List St} (h : popMin l = some (c, r))
    {q : St} : q ∈ l ↔ q = c ∨ q ∈ r := by
  rw [(popMin_perm h).mem_iff, List.mem_cons]

theorem popMin_min : ∀ {l : List St} {c : St} {r : List St},
    popMin l = some (c, r) → ∀ q ∈ r, c.time ≤ q.time := by
  intro l
  induction l with
  | nil => intro c r h; simp [popMin] at h
  | cons s rest ih =>
    intro c r h
    unfold popMin at h
    cases hrest : popMin rest with
    | none =>
      rw [hrest] at h
      simp only [Option.some.injEq, Prod.mk.injEq] at h
      obtain ⟨rfl, rfl⟩ := h
      intro q hq
      simp at hq
    | some p =>
      obtain ⟨m, rest2⟩ := p
      rw [hrest] at h
      by_cases hle : s.time ≤ m.time
      · simp only [hle, if_pos, Option.some.injEq, Prod.mk.injEq] at h
        obtain ⟨rfl, rfl⟩ := h
        intro q hq
        rcases (popMin_mem_iff hrest).mp hq with rfl | hq2
        · exact hle
        · exact hle.trans (ih hrest q hq2)
      · simp only [hle, if_neg, if_false, Option.some.injEq, Prod.mk.injEq] at h
        obtain ⟨rfl, rfl⟩ := h
        intro q hq
        rcases List.mem_cons.mp hq with rfl | hq2
        · exact le_of_not_le hle
        · exact ih hrest q hq2

theorem alookup_cons {α : Type} (k : Key) (v : α) (rest : List (Key × α)) (k2 : Key) :
    alookup ((k, v) :: rest) k2 = if k2 = k then some v else alookup rest k2 := rfl

/-! ### Lemmas about the move generator -/

/-- The climb delta of an attempted move (zero when the target is not
taller than the current altitude). -/
def climbOf (P : Params) (cur : St) (d : Int × Int) : Int :=
  if cur.altitude < hgt P.height (cur.r + d.1) (cur.c + d.2) then
    hgt P.height (cur.r + d.1) (cur.c + d.2) - cur.altitude
  else 0

theorem climbOf_nonneg (P : Params) (cur : St) (d : Int × Int) : 0 ≤ climbOf P cur d := by
  unfold climbOf
  split
  · next hlt => omega
  · exact le_refl 0

/-- Full characterisation of a successful move. -/
theorem moveTo_eq_some_iff {P : Params} {cur : St} {d : Int × Int} {ns : St} :
    moveTo P cur d = some ns ↔
      (0 ≤ cur.r + d.1 ∧ cur.r + d.1 < P.N ∧ 0 ≤ cur.c + d.2 ∧ cur.c + d.2 < P.M) ∧
      0 ≤ cur.battery - 1 - climbOf P cur d ∧
      ns = ⟨cur.time + 1 + climbOf P cur d, cur.r + d.1, cur.c + d.2,
            (if (cur.r + d.1, cur.c + d.2) ∈ P.recharge
              then min P.B (cur.battery - 1 - climbOf P cur d + P.K)
              else cur.battery - 1 - climbOf P cur d),
            (if cur.altitude < hgt P.height (cur.r + d.1) (cur.c + d.2)
              then hgt P.height (cur.r + d.1) (cur.c + d.2) else cur.altitude)⟩ := by
  unfold moveTo climbOf
  by_cases hb : cur.r + d.1 < 0 ∨ P.N ≤ cur.r + d.1 ∨ cur.c + d.2 < 0 ∨ P.M ≤ cur.c + d.2
  · simp only [hb, if_pos]
    constructor
    · intro h; exact absurd h (by simp)
    · intro ⟨h1, _, _⟩; omega
  · simp only [hb, if_neg, if_false]
    by_cases hneg : (cur.battery - 1 -
        (if cur.altitude < hgt P.height (cur.r + d.1) (cur.c + d.2)
          then hgt P.height (cur.r + d.1) (cur.c + d.2) - cur.altitude else 0)) < 0
    · simp only [hneg, if_pos]
      constructor
      · intro h; exact absurd h (by simp)
      · intro ⟨_, h2, _⟩; omega
    · simp only [hneg, if_neg, if_false, Option.some.injEq]
      constructor
      · intro h
        refine ⟨by omega, by omega, h.symm⟩
      · intro ⟨_, _, h⟩
        exact h.symm

theorem moveTo_time_lt {P : Params} {cur : St} {d : Int × Int} {ns : St}
    (h : moveTo P cur d = some ns) : cur.time < ns.time := by
  obtain ⟨-, -, rfl⟩ := moveTo_eq_some_iff.mp h
  have := climbOf_nonneg P cur d
  simp only
  omega

theorem moveTo_alt_mono {P : Params} {cur : St} {d : Int × Int} {ns : St}
    (h : moveTo P cur d = some ns) : cur.altitude ≤ ns.altitude := by
  obtain ⟨-, -, rfl⟩ := moveTo_eq_some_iff.mp h
  simp only
  split
  · next hlt => omega
  · exact le_refl _

/-- Moving does not stay in place: the target cell differs. -/
theorem moveTo_cell_ne {P : Params} {cur : St} {d : Int × Int} {ns : St}
    (hd : d ∈ dirs) (h : moveTo P cur d = some ns) : ¬(ns.r = cur.r ∧ ns.c = cur.c) := by
  obtain ⟨-, -, rfl⟩ := moveTo_eq_some_iff.mp h
  simp only [dirs, List.mem_cons] at hd
  rcases hd with rfl | rfl | rfl | rfl | h0 <;> first
    | (simp only; omega)
    | simp at h0

/-- A move's result depends on the source's time only through a shift. -/
theorem moveTo_shift {P : Params} {cur : St} {d : Int × Int} {ns : St}
    (h : moveTo P cur d = some ns) (t2 : Int) :
    moveTo P ⟨t2, cur.r, cur.c, cur.battery, cur.altitude⟩ d =
      some ⟨t2 + 1 + climbOf P cur d, ns.r, ns.c, ns.battery, ns.altitude⟩ := by
  obtain ⟨hb, hbat, rfl⟩ := moveTo_eq_some_iff.mp h
  rw [moveTo_eq_some_iff]
  refine ⟨hb, hbat, ?_⟩
  simp [climbOf]

theorem moveTo_moveK {P : Params} {cur : St} {d : Int × Int} {ns : St}
    (h : moveTo P cur d = some ns) : moveK P (key cur) d = some (key ns) := by
  unfold moveK
  rw [show (⟨0, (key cur).1, (key cur).2.1, (key cur).2.2.1, (key cur).2.2.2⟩ : St) =
    ⟨0, cur.r, cur.c, cur.battery, cur.altitude⟩ from rfl, moveTo_shift h 0]
  obtain ⟨-, -, rfl⟩ := moveTo_eq_some_iff.mp h
  rfl

theorem moveK_of_moveTo_time {P : Params} {t : Int} {k : Key} {d : Int × Int} {ns : St}
    (h : moveTo P (stOf t k) d = some ns) : moveK P k d = some (key ns) := by
  have := moveTo_moveK h
  simpa [stOf, key] using this

/-- Shifting a key-based state to any time: the successful move exists
with the shifted arrival time and identical key. -/
theorem moveTo_stOf_shift {P : Params} {t t2 : Int} {k : Key} {d : Int × Int} {ns : St}
    (h : moveTo P (stOf t k) d = some ns) :
    moveTo P (stOf t2 k) d = some ⟨ns.time - t + t2, ns.r, ns.c, ns.battery, ns.altitude⟩ := by
  have h2 := moveTo_shift h t2
  obtain ⟨-, -, hns⟩ := moveTo_eq_some_iff.mp h
  have htime : ns.time = t + 1 + climbOf P (stOf t k) d := by rw [hns]; rfl
  have : t2 + 1 + climbOf P (stOf t k) d = ns.time - t + t2 := by omega
  rw [show (⟨t2, (stOf t k).r, (stOf t k).c, (stOf t k).battery, (stOf t k).altitude⟩ : St) =
    stOf t2 k from rfl, this] at h2
  exact h2

/-! ### The effect of the relaxation loop

`RelStep P cur σ0 σ1` describes what expanding `cur` can do to the
search state: `best` untouched, `dist` values only improve, the queue
only grows, and everything new traces back to a move out of `cur`. -/

structure RelStep (P : Params) (cur : St) (σ0 σ1 : SS) : Prop where
  best_eq : σ1.best = σ0.best
  dist_mono : ∀ k t, alookup σ0.dist k = some t → ∃ t2, alookup σ1.dist k = some t2 ∧ t2 ≤ t
  pq_sub : ∀ q ∈ σ0.pq, q ∈ σ1.pq
  pq_new : ∀ q ∈ σ1.pq, q ∈ σ0.pq ∨ ∃ d ∈ dirs, moveTo P cur d = some q
  pq_entry : ∀ q ∈ σ1.pq, q ∈ σ0.pq ∨
      ∃ t, alookup σ1.dist (key q) = some t ∧ t ≤ q.time
  dist_new : ∀ k t, alookup σ1.dist k = some t → alookup σ0.dist k = some t ∨
      ∃ q ∈ σ1.pq, key q = k ∧ q.time = t ∧ ∃ d ∈ dirs, moveTo P cur d = some q
  parent_mono : ∀ k p, alookup σ0.parent k = some p → ∃ p2, alookup σ1.parent k = some p2
  parent_new : ∀ k p, alookup σ1.parent k = some p → alookup σ0.parent k = some p ∨
      (p = key cur ∧ (∃ t, alookup σ1.dist k = some t) ∧ ∃ d ∈ dirs, moveK P (key cur) d = some k)
  dist_parent : ∀ k t, alookup σ1.dist k = some t → alookup σ0.dist k = some t ∨
      ∃ p, alookup σ1.parent k = some p

theorem RelStep.refl (P : Params) (cur : St) (σ : SS) : RelStep P cur σ σ where
  best_eq := rfl
  dist_mono := fun k t h => ⟨t, h, le_refl t⟩
  pq_sub := fun q hq => hq
  pq_new := fun q hq => Or.inl hq
  pq_entry := fun q hq => Or.inl hq
  dist_new := fun k t h => Or.inl h
  parent_mono := fun k p h => ⟨p, h⟩
  parent_new := fun k p h => Or.inl h
  dist_parent := fun k t h => Or.inl h

theorem RelStep.trans {P : Params} {cur : St} {σ0 σ1 σ2 : SS}
    (a : RelStep P cur σ0 σ1) (b : RelStep P cur σ1 σ2) : RelStep P cur σ0 σ2 where
  best_eq := b.best_eq.trans a.best_eq
  dist_mono := fun k t h => by
    obtain ⟨t1, h1, hle1⟩ := a.dist_mono k t h
    obtain ⟨t2, h2, hle2⟩ := b.dist_mono k t1 h1
    exact ⟨t2, h2, hle2.trans hle1⟩
  pq_sub := fun q hq => b.pq_sub q (a.pq_sub q hq)
  pq_new := fun q hq => by
    rcases b.pq_new q hq with h1 | h1
    · exact a.pq_new q h1
    · exact Or.inr h1
  pq_entry := fun q hq => by
    rcases b.pq_entry q hq with h1 | h1
    · rcases a.pq_entry q h1 with h2 | ⟨t, ht, hle⟩
      · exact Or.inl h2
      · obtain ⟨t2, ht2, hle2⟩ := b.dist_mono _ t ht
        exact Or.inr ⟨t2, ht2, hle2.trans hle⟩
    · exact Or.inr h1
  dist_new := fun k t h => by
    rcases b.dist_new k t h with h1 | ⟨q, hq, hk, htq, hd⟩
    · rcases a.dist_new k t h1 with h2 | ⟨q, hq, hk, htq, hd⟩
      · exact Or.inl h2
      · exact Or.inr ⟨q, b.pq_sub q hq, hk, htq, hd⟩
    · exact Or.inr ⟨q, hq, hk, htq, hd⟩
  parent_mono := fun k p h => by
    obtain ⟨p1, h1⟩ := a.parent_mono k p h
    exact b.parent_mono k p1 h1
  parent_new := fun k p h => by
    rcases b.parent_new k p h with h1 | ⟨hp, ⟨t, ht⟩, hd⟩
    · rcases a.parent_new k p h1 with h2 | ⟨hp, ⟨t, ht⟩, hd⟩
      · exact Or.inl h2
      · obtain ⟨t2, ht2, -⟩ := b.dist_mono _ t ht
        exact Or.inr ⟨hp, ⟨t2, ht2⟩, hd⟩
    · exact Or.inr ⟨hp, ⟨t, ht⟩, hd⟩
  dist_parent := fun k t h => by
    rcases b.dist_parent k t h with h1 | h1
    · rcases a.dist_parent k t h1 with h2 | ⟨p, hp⟩
      · exact Or.inl h2
      · obtain ⟨p2, hp2⟩ := b.parent_mono k p hp
        exact Or.inr ⟨p2, hp2⟩
    · exact h1.elim fun p hp => Or.inr ⟨p, hp⟩

theorem relax1_relStep (P : Params) (cur : St) (σ : SS) {d : Int × Int} (hd : d ∈ dirs) :
    RelStep P cur σ (relax1 P cur σ d) := by
  unfold relax1
  cases hmv : moveTo P cur d with
  | none => exact RelStep.refl P cur σ
  | some ns =>
    simp only
    by_cases himp : (match alookup σ.dist (key ns) with
      | none => true
      | some dv => decide (ns.time < dv)) = true
    · rw [if_pos himp]
      have hlook : ∀ k : Key, alookup ((key ns, ns.time) :: σ.dist) k =
          if k = key ns then some ns.time else alookup σ.dist k := fun k => rfl
      have hplook : ∀ k : Key, alookup ((key ns, key cur) :: σ.parent) k =
          if k = key ns then some (key cur) else alookup σ.parent k := fun k => rfl
      have himp2 : ∀ dv, alookup σ.dist (key ns) = some dv → ns.time < dv := by
        intro dv hdv
        rw [hdv] at himp
        simpa using himp
      constructor
      · rfl
      · intro k t h
        rw [hlook]
        by_cases hk : k = key ns
        · subst hk
          exact ⟨ns.time, by simp, (himp2 t h).le⟩
        · rw [if_neg hk]; exact ⟨t, h, le_refl t⟩
      · intro q hq; simp [hq]
      · intro q hq
        rcases List.mem_append.mp hq with h1 | h1
        · exact Or.inl h1
        · simp only [List.mem_singleton] at h1
          exact Or.inr ⟨d, hd, h1 ▸ hmv⟩
      · intro q hq
        rcases List.mem_append.mp hq with h1 | h1
        · exact Or.inl h1
        · simp only [List.mem_singleton] at h1
          subst h1
          exact Or.inr ⟨q.time, by simp [hlook], le_refl _⟩
      · intro k t h
        rw [hlook] at h
        by_cases hk : k = key ns
        · rw [if_pos hk] at h
          refine Or.inr ⟨ns, by simp, ?_, ?_, d, hd, hmv⟩
          · rw [hk]
          · simpa using h
        · rw [if_neg hk] at h
          exact Or.inl h
      · intro k p h
        rw [hplook]
        by_cases hk : k = key ns
        · exact ⟨key cur, by rw [if_pos hk]⟩
        · rw [if_neg hk]; exact ⟨p, h⟩
      · intro k p h
        rw [hplook] at h
        by_cases hk : k = key ns
        · rw [if_pos hk] at h
          refine Or.inr ⟨by simpa using h.symm, ⟨ns.time, by rw [hlook, if_pos hk]⟩,
            d, hd, hk ▸ moveTo_moveK hmv⟩
        · rw [if_neg hk] at h
          exact Or.inl h
      · intro k t h
        by_cases hk : k = key ns
        · exact Or.inr ⟨key cur, by rw [hplook, if_pos hk]⟩
        · rw [hlook, if_neg hk] at h
          exact Or.inl h
    · rw [if_neg himp]
      exact RelStep.refl P cur σ

theorem relaxFold_relStep (P : Params) (cur : St) :
    ∀ (L : List (Int × Int)), (∀ d ∈ L, d ∈ dirs) → ∀ (σ : SS),
    RelStep P cur σ (L.foldl (relax1 P cur) σ) := by
  intro L
  induction L with
  | nil => intro _ σ; exact RelStep.refl P cur σ
  | cons d L ih =>
    intro hL σ
    have hd : d ∈ dirs := hL d (List.mem_cons_self d L)
    have h1 := relax1_relStep P cur σ hd
    have h2 := ih (fun e he => hL e (List.mem_cons_of_mem d he)) (relax1 P cur σ d)
    exact h1.trans h2

theorem relaxAll_relStep (P : Params) (cur : St) (σ : SS) :
    RelStep P cur σ (relaxAll P cur σ) :=
  relaxFold_relStep P cur dirs (fun _ h => h) σ

/-- After one relaxation step for direction `d`, the target key of any
successful move along `d` holds a distance no worse than the move's
arrival time. -/
theorem relax1_post (P : Params) (cur : St) (σ : SS) (d : Int × Int) {ns : St}
    (hmv : moveTo P cur d = some ns) :
    ∃ t, alookup (relax1 P cur σ d).dist (key ns) = some t ∧ t ≤ ns.time := by
  unfold relax1
  rw [hmv]
  simp only
  by_cases himp : (match alookup σ.dist (key ns) with
    | none => true
    | some dv => decide (ns.time < dv)) = true
  · rw [if_pos himp]
    exact ⟨ns.time, by simp [alookup_cons], le_refl _⟩
  · rw [if_neg himp]
    cases hdv : alookup σ.dist (key ns) with
    | none => rw [hdv] at himp; simp at himp
    | some dv =>
      rw [hdv] at himp
      simp only [decide_eq_true_eq] at himp
      exact ⟨dv, rfl, le_of_not_lt himp⟩

/-- After the whole relaxation loop, every successful move out of `cur`
has been recorded with a distance no worse than its arrival time. -/
theorem relaxAll_post (P : Params) (cur : St) (σ : SS) :
    ∀ d ∈ dirs, ∀ ns : St, moveTo P cur d = some ns →
    ∃ t, alookup (relaxAll P cur σ).dist (key ns) = some t ∧ t ≤ ns.time := by
  have main : ∀ (L : List (Int × Int)), (∀ e ∈ L, e ∈ dirs) → ∀ (σ0 : SS),
      ∀ d ∈ L, ∀ ns : St, moveTo P cur d = some ns →
      ∃ t, alookup (L.foldl (relax1 P cur) σ0).dist (key ns) = some t ∧ t ≤ ns.time := by
    intro L
    induction L with
    | nil => intro _ σ0 d hd; simp at hd
    | cons e L ih =>
      intro hL σ0 d hd ns hmv
      rcases List.mem_cons.mp hd with rfl | hd2
      · obtain ⟨t, ht, hle⟩ := relax1_post P cur σ0 d hmv
        obtain ⟨t2, ht2, hle2⟩ :=
          (relaxFold_relStep P cur L (fun x hx => hL x (List.mem_cons_of_mem _ hx))
            (relax1 P cur σ0 d)).dist_mono (key ns) t ht
        exact ⟨t2, ht2, hle2.trans hle⟩
      · exact ih (fun x hx => hL x (List.mem_cons_of_mem _ hx)) (relax1 P cur σ0 e) d hd2 ns hmv
  exact fun d hd => main dirs (fun _ h => h) σ d hd

/-! ### The search-loop invariant -/

theorem stOf_key (s : St) : stOf s.time (key s) = s := rfl

theorem stOf_of_key_time {q : St} {k : Key} {t : Int} (hk : key q = k) (ht : q.time = t) :
    stOf t k = q := by subst hk; subst ht; rfl

theorem atDestK_key (P : Params) (s : St) : atDestK P (key s) ↔ atDest P s := Iff.rfl

theorem updateBest_spec (b : Option (Int × Key)) (t0 : Int) (k0 : Key) :
    ∃ bt2 bk2, updateBest b t0 k0 = some (bt2, bk2) ∧ bt2 ≤ t0 ∧
      (∀ bt bk, b = some (bt, bk) → bt2 ≤ bt) ∧
      ((bt2, bk2) = (t0, k0) ∨ b = some (bt2, bk2)) := by
  cases b with
  | none => exact ⟨t0, k0, rfl, le_refl t0, fun bt bk h => by simp at h, Or.inl rfl⟩
  | some p =>
    obtain ⟨bt, bk⟩ := p
    by_cases hlt : t0 < bt
    · refine ⟨t0, k0, ?_, le_refl t0, ?_, Or.inl rfl⟩
      · simp [updateBest, hlt]
      · intro bt2 bk2 h
        simp only [Option.some.injEq, Prod.mk.injEq] at h
        omega
    · refine ⟨bt, bk, ?_, le_of_not_lt hlt, ?_, Or.inr rfl⟩
      · simp [updateBest, hlt]
      · intro bt2 bk2 h
        simp only [Option.some.injEq, Prod.mk.injEq] at h
        omega

/-- The loop invariant: everything queued or recorded is genuinely
reachable; queued states have live map entries; every live map entry is
either fully relaxed (all its successors recorded at least as well) or
still has a live queue copy waiting; destination entries are either
covered by `best` or still queued; `parent` records real edges; every
non-origin entry has a parent; the initial entry survives. -/
structure Inv (P : Params) (σ : SS) : Prop where
  pqDist : ∀ q ∈ σ.pq, ∃ t, alookup σ.dist (key q) = some t ∧ t ≤ q.time
  pqReach : ∀ q ∈ σ.pq, Reaches P q
  distReach : ∀ k t, alookup σ.dist k = some t → Reaches P (stOf t k)
  bestReach : ∀ bt bk, σ.best = some (bt, bk) →
      Reaches P (stOf bt bk) ∧ atDestK P bk ∧ ∃ t, alookup σ.dist bk = some t
  closure : ∀ k t, alookup σ.dist k = some t → ¬atDestK P k →
      (∀ d ∈ dirs, ∀ ns : St, moveTo P (stOf t k) d = some ns →
        ∃ t2, alookup σ.dist (key ns) = some t2 ∧ t2 ≤ ns.time) ∨
      (∃ q ∈ σ.pq, key q = k ∧ q.time = t)
  destBest : ∀ k t, alookup σ.dist k = some t → atDestK P k →
      (∃ bt bk, σ.best = some (bt, bk) ∧ bt ≤ t) ∨ (∃ q ∈ σ.pq, key q = k ∧ q.time = t)
  parentEdge : ∀ k p, alookup σ.parent k = some p → EdgeRel P p k ∧
      (∃ tk, alookup σ.dist k = some tk) ∧ (∃ tp, alookup σ.dist p = some tp)
  parentDom : ∀ k t, alookup σ.dist k = some t → ¬(k.1 = 0 ∧ k.2.1 = 0) →
      ∃ p, alookup σ.parent k = some p
  initEntry : ∃ t, alookup σ.dist (key (initSt P)) = some t ∧ t ≤ startAlt P

theorem inv_initSS (P : Params) : Inv P (initSS P) where
  pqDist := by
    intro q hq
    simp only [initSS, List.mem_singleton] at hq
    subst hq
    exact ⟨startAlt P, by simp [initSS, alookup_cons], le_refl _⟩
  pqReach := by
    intro q hq
    simp only [initSS, List.mem_singleton] at hq
    subst hq
    exact ReachesFrom.refl
  distReach := by
    intro k t h
    simp only [initSS, alookup_cons] at h
    split at h
    · next hk =>
      simp only [Option.some.injEq] at h
      subst hk
      subst h
      exact ReachesFrom.refl
    · simp [alookup] at h
  bestReach := by intro bt bk h; simp [initSS] at h
  closure := by
    intro k t h _
    right
    simp only [initSS, alookup_cons] at h
    split at h
    · next hk =>
      simp only [Option.some.injEq] at h
      exact ⟨initSt P, by simp [initSS], hk.symm, h⟩
    · simp [alookup] at h
  destBest := by
    intro k t h _
    right
    simp only [initSS, alookup_cons] at h
    split at h
    · next hk =>
      simp only [Option.some.injEq] at h
      exact ⟨initSt P, by simp [initSS], hk.symm, h⟩
    · simp [alookup] at h
  parentEdge := by intro k p h; simp [initSS, alookup] at h
  parentDom := by
    intro k t h hne
    simp only [initSS, alookup_cons] at h
    split at h
    · next hk =>
      subst hk
      exact absurd ⟨rfl, rfl⟩ hne
    · simp [alookup] at h
  initEntry := ⟨startAlt P, by simp [initSS, alookup_cons], le_refl _⟩

theorem staleB_true_elim {dist : List (Key × Int)} {cur : St} (h : staleB dist cur = true) :
    ∃ dv, alookup dist (key cur) = some dv ∧ dv < cur.time := by
  unfold staleB at h
  cases hdv : alookup dist (key cur) with
  | none => rw [hdv] at h; simp at h
  | some dv =>
    rw [hdv] at h
    simp only [decide_eq_true_eq] at h
    exact ⟨dv, rfl, h⟩

theorem staleB_false_elim {dist : List (Key × Int)} {cur : St} (h : ¬staleB dist cur = true)
    {dv : Int} (hdv : alookup dist (key cur) = some dv) : cur.time ≤ dv := by
  unfold staleB at h
  rw [hdv] at h
  simp only [decide_eq_true_eq] at h
  exact le_of_not_lt h

/-- Popping a stale entry preserves the invariant. -/
theorem inv_stale {P : Params} {σ : SS} {cur : St} {rest : List St} (hI : Inv P σ)
    (hmem : ∀ q : St, q ∈ σ.pq ↔ q = cur ∨ q ∈ rest)
    (hst : staleB σ.dist cur = true) : Inv P { σ with pq := rest } := by
  obtain ⟨dv, hdv, hlt⟩ := staleB_true_elim hst
  have hwit : ∀ (k : Key) (t : Int), alookup σ.dist k = some t →
      (∃ q ∈ σ.pq, key q = k ∧ q.time = t) → ∃ q ∈ rest, key q = k ∧ q.time = t := by
    intro k t ht ⟨q, hq, hk, htq⟩
    rcases (hmem q).mp hq with rfl | hq2
    · subst hk
      rw [hdv] at ht
      simp only [Option.some.injEq] at ht
      omega
    · exact ⟨q, hq2, hk, htq⟩
  refine { pqDist := ?_, pqReach := ?_, distReach := hI.distReach, bestReach := hI.bestReach,
           closure := ?_, destBest := ?_, parentEdge := hI.parentEdge,
           parentDom := hI.parentDom, initEntry := hI.initEntry }
  · intro q hq
    exact hI.pqDist q ((hmem q).mpr (Or.inr hq))
  · intro q hq
    exact hI.pqReach q ((hmem q).mpr (Or.inr hq))
  · intro k t ht hnd
    rcases hI.closure k t ht hnd with hcl | hq
    · exact Or.inl hcl
    · exact Or.inr (hwit k t ht hq)
  · intro k t ht hd
    rcases hI.destBest k t ht hd with hb | hq
    · exact Or.inl hb
    · exact Or.inr (hwit k t ht hq)

/-- Popping a live destination state records it in `best` and preserves
the invariant. -/
theorem inv_dest {P : Params} {σ : SS} {cur : St} {rest : List St} (hI : Inv P σ)
    (hcur : cur ∈ σ.pq)
    (hmem : ∀ q : St, q ∈ σ.pq ↔ q = cur ∨ q ∈ rest)
    (hst : ¬staleB σ.dist cur = true)
    (hd : atDest P cur) :
    Inv P { σ with pq := rest, best := updateBest σ.best cur.time (key cur) } := by
  obtain ⟨tc, htc, htcle⟩ := hI.pqDist cur hcur
  have htc2 : tc = cur.time := le_antisymm htcle (staleB_false_elim hst htc)
  subst htc2
  obtain ⟨bt2, bk2, hub, hle0, hleb, hprov⟩ := updateBest_spec σ.best cur.time (key cur)
  refine { pqDist := ?_, pqReach := ?_, distReach := hI.distReach, bestReach := ?_,
           closure := ?_, destBest := ?_, parentEdge := hI.parentEdge,
           parentDom := hI.parentDom, initEntry := hI.initEntry }
  · intro q hq
    exact hI.pqDist q ((hmem q).mpr (Or.inr hq))
  · intro q hq
    exact hI.pqReach q ((hmem q).mpr (Or.inr hq))
  · intro bt bk hb
    simp only at hb
    rw [hub] at hb
    simp only [Option.some.injEq, Prod.mk.injEq] at hb
    obtain ⟨rfl, rfl⟩ := hb
    rcases hprov with heq | hold
    · simp only [Prod.mk.injEq] at heq
      obtain ⟨rfl, rfl⟩ := heq
      exact ⟨(stOf_key cur).symm ▸ hI.pqReach cur hcur, (atDestK_key P cur).mpr hd,
        ⟨cur.time, htc⟩⟩
    · exact hI.bestReach _ _ hold
  · intro k t ht hnd
    rcases hI.closure k t ht hnd with hcl | ⟨q, hq, hk, htq⟩
    · exact Or.inl hcl
    · rcases (hmem q).mp hq with rfl | hq2
      · subst hk
        exact absurd ((atDestK_key P q).mpr hd) hnd
      · exact Or.inr ⟨q, hq2, hk, htq⟩
  · intro k t ht hdk
    rcases hI.destBest k t ht hdk with ⟨bt, bk, hb, hble⟩ | ⟨q, hq, hk, htq⟩
    · exact Or.inl ⟨bt2, bk2, hub, (hleb bt bk hb).trans hble⟩
    · rcases (hmem q).mp hq with rfl | hq2
      · subst hk
        subst htq
        exact Or.inl ⟨bt2, bk2, hub, hle0⟩
      · exact Or.inr ⟨q, hq2, hk, htq⟩

/-- Expanding a live non-destination state preserves the invariant. -/
theorem inv_expand {P : Params} {σ : SS} {cur : St} {rest : List St} (hI : Inv P σ)
    (hcur : cur ∈ σ.pq)
    (hmem : ∀ q : St, q ∈ σ.pq ↔ q = cur ∨ q ∈ rest)
    (hst : ¬staleB σ.dist cur = true)
    (hnd : ¬atDest P cur) :
    Inv P (relaxAll P cur { σ with pq := rest }) := by
  obtain ⟨tc, htc, htcle⟩ := hI.pqDist cur hcur
  have htc2 : tc = cur.time := le_antisymm htcle (staleB_false_elim hst htc)
  subst htc2
  set σm : SS := { σ with pq := rest } with hσm
  have hmdist : σm.dist = σ.dist := rfl
  have hmparent : σm.parent = σ.parent := rfl
  have hmbest : σm.best = σ.best := rfl
  have hmpq : σm.pq = rest := rfl
  have RS := relaxAll_relStep P cur σm
  set σ2 : SS := relaxAll P cur σm with hσ2
  have hReachCur : Reaches P cur := hI.pqReach cur hcur
  refine { pqDist := ?_, pqReach := ?_, distReach := ?_, bestReach := ?_,
           closure := ?_, destBest := ?_, parentEdge := ?_,
           parentDom := ?_, initEntry := ?_ }
  · intro q hq
    rcases RS.pq_entry q hq with hq0 | hent
    · obtain ⟨t, ht, hle⟩ := hI.pqDist q ((hmem q).mpr (Or.inr (hmpq ▸ hq0)))
      obtain ⟨t2, ht2, hle2⟩ := RS.dist_mono (key q) t (hmdist ▸ ht)
      exact ⟨t2, ht2, hle2.trans hle⟩
    · exact hent
  · intro q hq
    rcases RS.pq_new q hq with hq0 | ⟨d, hd, hmv⟩
    · exact hI.pqReach q ((hmem q).mpr (Or.inr (hmpq ▸ hq0)))
    · exact ReachesFrom.tail hReachCur hd hmv
  · intro k t ht
    rcases RS.dist_new k t ht with h0 | ⟨q, hq, hk, htq, d, hd, hmv⟩
    · exact hI.distReach k t (hmdist ▸ h0)
    · rw [stOf_of_key_time hk htq]
      exact ReachesFrom.tail hReachCur hd hmv
  · intro bt bk hb
    rw [RS.best_eq, hmbest] at hb
    obtain ⟨hr, hdk, t, ht⟩ := hI.bestReach bt bk hb
    obtain ⟨t2, ht2, -⟩ := RS.dist_mono bk t (hmdist ▸ ht)
    exact ⟨hr, hdk, t2, ht2⟩
  · intro k t ht hndk
    rcases RS.dist_new k t ht with h0 | ⟨q, hq, hk, htq, d, hd, hmv⟩
    · have h0' : alookup σ.dist k = some t := hmdist ▸ h0
      by_cases hkc : k = key cur
      · subst hkc
        rw [htc] at h0'
        simp only [Option.some.injEq] at h0'
        subst h0'
        left
        intro d hd ns hmv
        rw [stOf_key] at hmv
        obtain ⟨t2, ht2, hle2⟩ := relaxAll_post P cur σm d hd ns hmv
        exact ⟨t2, ht2, hle2⟩
      · rcases hI.closure k t h0' hndk with hcl | ⟨q, hq, hk, htq⟩
        · left
          intro d hd ns hmv
          obtain ⟨t2, ht2, hle2⟩ := hcl d hd ns hmv
          obtain ⟨t3, ht3, hle3⟩ := RS.dist_mono (key ns) t2 (hmdist ▸ ht2)
          exact ⟨t3, ht3, hle3.trans hle2⟩
        · rcases (hmem q).mp hq with rfl | hq2
          · exact absurd hk.symm hkc
          · exact Or.inr ⟨q, RS.pq_sub q (hmpq ▸ hq2), hk, htq⟩
    · exact Or.inr ⟨q, hq, hk, htq⟩
  · intro k t ht hdk
    rcases RS.dist_new k t ht with h0 | ⟨q, hq, hk, htq, d, hd, hmv⟩
    · have h0' : alookup σ.dist k = some t := hmdist ▸ h0
      rcases hI.destBest k t h0' hdk with ⟨bt, bk, hb, hble⟩ | ⟨q, hq, hk, htq⟩
      · exact Or.inl ⟨bt, bk, by rw [RS.best_eq, hmbest]; exact hb, hble⟩
      · rcases (hmem q).mp hq with rfl | hq2
        · subst hk
          exact absurd ((atDestK_key P q).mp hdk) hnd
        · exact Or.inr ⟨q, RS.pq_sub q (hmpq ▸ hq2), hk, htq⟩
    · exact Or.inr ⟨q, hq, hk, htq⟩
  · intro k p hp
    rcases RS.parent_new k p hp with h0 | ⟨hpc, ⟨tk, htk⟩, d, hd, hmk⟩
    · obtain ⟨he, ⟨tk, htk⟩, tp, htp⟩ := hI.parentEdge k p (hmparent ▸ h0)
      obtain ⟨tk2, htk2, -⟩ := RS.dist_mono k tk (hmdist ▸ htk)
      obtain ⟨tp2, htp2, -⟩ := RS.dist_mono p tp (hmdist ▸ htp)
      exact ⟨he, ⟨tk2, htk2⟩, tp2, htp2⟩
    · subst hpc
      obtain ⟨tp2, htp2, -⟩ := RS.dist_mono (key cur) cur.time (hmdist ▸ htc)
      exact ⟨⟨d, hd, hmk⟩, ⟨tk, htk⟩, tp2, htp2⟩
  · intro k t ht hne
    rcases RS.dist_parent k t ht with h0 | ⟨p, hp⟩
    · obtain ⟨p, hp⟩ := hI.parentDom k t (hmdist ▸ h0) hne
      exact RS.parent_mono k p (hmparent ▸ hp)
    · exact ⟨p, hp⟩
  · obtain ⟨t, ht, hle⟩ := hI.initEntry
    obtain ⟨t2, ht2, hle2⟩ := RS.dist_mono (key (initSt P)) t (hmdist ▸ ht)
    exact ⟨t2, ht2, hle2.trans hle⟩

/-- One loop iteration preserves the invariant. -/
theorem stepF_inv {P : Params} {σ σ2 : SS} (hI : Inv P σ) (h : stepF P σ = some σ2) :
    Inv P σ2 := by
  unfold stepF at h
  cases hpop : popMin σ.pq with
  | none => rw [hpop] at h; simp at h
  | some pr =>
    obtain ⟨cur, rest⟩ := pr
    rw [hpop] at h
    simp only [Option.some.injEq] at h
    subst h
    have hcur : cur ∈ σ.pq := popMin_mem hpop
    have hmem : ∀ q : St, q ∈ σ.pq ↔ q = cur ∨ q ∈ rest := fun q => popMin_mem_iff hpop
    unfold processCur
    by_cases hst : staleB σ.dist cur = true
    · rw [if_pos hst]
      exact @inv_stale P σ cur rest hI hmem hst
    · rw [if_neg hst]
      by_cases hd : cur.r = P.N - 1 ∧ cur.c = P.M - 1
      · rw [if_pos hd]
        exact @inv_dest P σ cur rest hI hcur hmem hst hd
      · rw [if_neg hd]
        exact @inv_expand P σ cur rest hI hcur hmem hst hd

/-- The invariant transported to the end of the loop, together with the
fact that a normal exit leaves an empty queue. -/
theorem loopF_inv {P : Params} : ∀ {n : Nat} {σ σf : SS}, Inv P σ →
    loopF P n σ = some σf → Inv P σf ∧ σf.pq = [] := by
  intro n
  induction n with
  | zero => intro σ σf _ h; simp [loopF] at h
  | succ m ih =>
    intro σ σf hI h
    unfold loopF at h
    cases hs : stepF P σ with
    | none =>
      rw [hs] at h
      simp only [Option.some.injEq] at h
      subst h
      refine ⟨hI, ?_⟩
      unfold stepF at hs
      cases hpop : popMin σ.pq with
      | none => exact popMin_eq_none_iff.mp hpop
      | some pr => rw [hpop] at hs; simp at hs
    | some σ1 =>
      rw [hs] at h
      exact ih (stepF_inv hI hs) h

/-! ### Completeness: at loop exit the recorded distances dominate
every battery-respecting path, so `best` is the true minimum. -/

/-- Every reachable state either lies on a destination-free path, or a
destination state was already reached no later on the way. -/
theorem reach_nd_or_dest {P : Params} {s : St} (h : Reaches P s) :
    ReachesND P s ∨ ∃ s2, ReachesND P s2 ∧ atDest P s2 ∧ s2.time ≤ s.time := by
  induction h with
  | refl => exact Or.inl ReachesND.refl
  | tail hr hd hmv ih =>
    next s0 d ns =>
    have hlt := moveTo_time_lt hmv
    rcases ih with hnd | ⟨s2, hnd2, hdest2, hle2⟩
    · by_cases hdst : atDest P s0
      · exact Or.inr ⟨s0, hnd, hdst, hlt.le⟩
      · exact Or.inl (ReachesND.tail hnd hdst hd hmv)
    · exact Or.inr ⟨s2, hnd2, hdest2, hle2.trans hlt.le⟩

/-- At loop exit, every state on a destination-free valid path has a
recorded distance at least as good as the path's arrival time. -/
theorem final_dist_le {P : Params} {σf : SS} (hI : Inv P σf) (hpq : σf.pq = [])
    {s : St} (h : ReachesND P s) :
    ∃ t, alookup σf.dist (key s) = some t ∧ t ≤ s.time := by
  induction h with
  | refl =>
    obtain ⟨t, ht, hle⟩ := hI.initEntry
    exact ⟨t, ht, hle⟩
  | tail hr hnd hd hmv ih =>
    next s0 d ns =>
    obtain ⟨t, ht, hle⟩ := ih
    have hndk : ¬atDestK P (key s0) := fun hk => hnd ((atDestK_key P s0).mp hk)
    rcases hI.closure (key s0) t ht hndk with hcl | ⟨q, hq, -⟩
    · have hmv0 : moveTo P (stOf s0.time (key s0)) d = some ns := by
        rw [stOf_key]; exact hmv
      have hmv2 := @moveTo_stOf_shift P s0.time t (key s0) d ns hmv0
      obtain ⟨t2, ht2, hle2⟩ := hcl d hd _ hmv2
      refine ⟨t2, ?_, ?_⟩
      · exact ht2
      · simp only [key] at hle2 ⊢
        omega
    · rw [hpq] at hq
      simp at hq

/-- At loop exit, `best` is set and dominates the time of every
reachable destination state. -/
theorem dest_min {P : Params} {σf : SS} (hI : Inv P σf) (hpq : σf.pq = [])
    {s : St} (h : Reaches P s) (hd : atDest P s) :
    ∃ bt bk, σf.best = some (bt, bk) ∧ bt ≤ s.time := by
  have hcut : ∃ s2, ReachesND P s2 ∧ atDest P s2 ∧ s2.time ≤ s.time := by
    rcases reach_nd_or_dest h with hnd | hc
    · exact ⟨s, hnd, hd, le_refl _⟩
    · exact hc
  obtain ⟨s2, hnd2, hdest2, hle2⟩ := hcut
  obtain ⟨t, ht, hlet⟩ := final_dist_le hI hpq hnd2
  rcases hI.destBest (key s2) t ht ((atDestK_key P s2).mpr hdest2) with
    ⟨bt, bk, hb, hble⟩ | ⟨q, hq, -⟩
  · exact ⟨bt, bk, hb, by omega⟩
  · rw [hpq] at hq
    simp at hq

/-! ### Properties of the reconstructed path -/

theorem edgeRel_props {P : Params} {p k : Key} (h : EdgeRel P p k) :
    (k.1 - p.1).natAbs + (k.2.1 - p.2.1).natAbs = 1 ∧
    k.2.2.2 = (if p.2.2.2 < hgt P.height k.1 k.2.1 then hgt P.height k.1 k.2.1 else p.2.2.2) ∧
    p.2.2.2 ≤ k.2.2.2 ∧
    0 ≤ k.1 ∧ k.1 < P.N ∧ 0 ≤ k.2.1 ∧ k.2.1 < P.M := by
  obtain ⟨d, hd, hmk⟩ := h
  rw [show moveK P p d = (moveTo P (stOf 0 p) d).map key from rfl] at hmk
  cases hmv : moveTo P (stOf 0 p) d with
  | none => rw [hmv] at hmk; simp at hmk
  | some ns =>
    rw [hmv] at hmk
    simp only [Option.map] at hmk
    simp only [Option.some.injEq] at hmk
    subst hmk
    obtain ⟨⟨hb1, hb2, hb3, hb4⟩, -, rfl⟩ := moveTo_eq_some_iff.mp hmv
    simp only [dirs, List.mem_cons] at hd
    refine ⟨?_, ?_, ?_, ?_, ?_, ?_, ?_⟩ <;>
      first
        | (rcases hd with rfl | rfl | rfl | rfl | h0 <;>
            first | (simp only [key, stOf]; omega) | simp at h0)
        | (simp only [key, stOf] at hb1 hb2 hb3 hb4 ⊢; try split) <;> omega

theorem reconstruct_props {P : Params} {dist : List (Key × Int)} {parent : List (Key × Key)}
    (hEdge : ∀ k p, alookup parent k = some p → EdgeRel P p k ∧
      (∃ tk, alookup dist k = some tk) ∧ (∃ tp, alookup dist p = some tp))
    (hDom : ∀ k t, alookup dist k = some t → ¬(k.1 = 0 ∧ k.2.1 = 0) →
      ∃ p, alookup parent k = some p) :
    ∀ (n : Nat) (k : Key) (l : List PathRec), (∃ tk, alookup dist k = some tk) →
      reconstruct dist parent n k = some l →
      (∃ x xs, l = x :: xs ∧ recKey x = k) ∧
      (∀ x, l.getLast? = some x → x.r = 0 ∧ x.c = 0) ∧
      List.Chain' (fun a b => EdgeRel P (recKey b) (recKey a)) l ∧
      (∀ x ∈ l, ∃ t, alookup dist (recKey x) = some t ∧ x.time = t) := by
  intro n
  induction n with
  | zero => intro k l _ h; simp [reconstruct] at h
  | succ m ih =>
    intro k l hk h
    obtain ⟨tk, htk⟩ := hk
    unfold reconstruct at h
    by_cases h0 : k.1 = 0 ∧ k.2.1 = 0
    · rw [if_pos h0] at h
      simp only [Option.some.injEq] at h
      subst h
      refine ⟨⟨_, [], rfl, rfl⟩, ?_, List.chain'_singleton _, ?_⟩
      · intro x hx
        simp only [List.getLast?_singleton, Option.some.injEq] at hx
        subst hx
        exact h0
      · intro x hx
        simp only [List.mem_singleton] at hx
        subst hx
        refine ⟨tk, ?_, ?_⟩
        · show alookup dist (k.1, k.2.1, k.2.2.1, k.2.2.2) = some tk
          exact htk
        · show (alookup dist k).getD 0 = tk
          rw [htk]
          rfl
    · rw [if_neg h0] at h
      obtain ⟨p, hp⟩ := hDom k tk htk h0
      rw [hp] at h
      simp only [Option.getD_some] at h
      cases hrec : reconstruct dist parent m p with
      | none => rw [hrec] at h; simp at h
      | some l2 =>
        rw [hrec] at h
        simp only [Option.some.injEq] at h
        subst h
        obtain ⟨hE, -, hpdist⟩ := hEdge k p hp
        obtain ⟨⟨y, ys, hl2, hky⟩, hlast, hchain, hmemp⟩ := ih p l2 hpdist hrec
        refine ⟨⟨_, l2, rfl, rfl⟩, ?_, ?_, ?_⟩
        · intro x hx
          rw [hl2] at hx
          rw [List.getLast?_cons_cons] at hx
          exact hlast x (hl2 ▸ hx)
        · rw [hl2]
          rw [List.chain'_cons]
          constructor
          · show EdgeRel P (recKey y) _
            rw [hky]
            show EdgeRel P p (k.1, k.2.1, k.2.2.1, k.2.2.2)
            exact hE
          · exact hl2 ▸ hchain
        · intro x hx
          rcases List.mem_cons.mp hx with rfl | hx2
          · refine ⟨tk, ?_, ?_⟩
            · show alookup dist (k.1, k.2.1, k.2.2.1, k.2.2.2) = some tk
              exact htk
            · show (alookup dist k).getD 0 = tk
              rw [htk]
              rfl
          · exact hmemp x hx2

/-- Unpacking a successful run of the whole solver. -/
theorem solve_success_elim {P : Params} {fuel : Nat} {bt : Int} {p : List PathRec}
    (h : solve P fuel = some (Result.success bt p)) :
    ∃ σf bk l, loopF P fuel (initSS P) = some σf ∧ σf.best = some (bt, bk) ∧
      reconstruct σf.dist σf.parent fuel bk = some l ∧ p = l.reverse := by
  unfold solve at h
  split at h
  · exact absurd h (by simp)
  · rename_i σf hl
    split at h
    · simp at h
    · rename_i bt2 bk hb
      split at h
      · simp at h
      · rename_i l hrec
        simp only [Option.some.injEq, Result.success.injEq] at h
        obtain ⟨rfl, rfl⟩ := h
        exact ⟨σf, bk, l, hl, hb, hrec, rfl⟩

/-! ### The battery invariant -/

/-- Every key ever recorded in `dist` keeps its battery inside `[0, B]`. -/
def BatInv (P : Params) (σ : SS) : Prop :=
  ∀ k t, alookup σ.dist k = some t → 0 ≤ k.2.2.1 ∧ k.2.2.1 ≤ P.B

theorem moveTo_battery {P : Params} {cur : St} {d : Int × Int} {ns : St}
    (hB : 0 ≤ P.B) (hK : 0 ≤ P.K) (hcb : cur.battery ≤ P.B)
    (h : moveTo P cur d = some ns) : 0 ≤ ns.battery ∧ ns.battery ≤ P.B := by
  obtain ⟨-, hbat, rfl⟩ := moveTo_eq_some_iff.mp h
  have hcl := climbOf_nonneg P cur d
  simp only
  split <;> omega

theorem batInv_initSS {P : Params} (hB : 0 ≤ P.B) : BatInv P (initSS P) := by
  intro k t h
  simp only [initSS, alookup_cons] at h
  split at h
  · next hk =>
    subst hk
    exact ⟨hB, le_refl _⟩
  · simp [alookup] at h

theorem stepF_batInv {P : Params} {σ σ2 : SS} (hB : 0 ≤ P.B) (hK : 0 ≤ P.K)
    (hI : Inv P σ) (hBat : BatInv P σ) (h : stepF P σ = some σ2) : BatInv P σ2 := by
  unfold stepF at h
  cases hpop : popMin σ.pq with
  | none => rw [hpop] at h; simp at h
  | some pr =>
    obtain ⟨cur, rest⟩ := pr
    rw [hpop] at h
    simp only [Option.some.injEq] at h
    subst h
    have hcur : cur ∈ σ.pq := popMin_mem hpop
    have hcb : cur.battery ≤ P.B := by
      obtain ⟨t, ht, -⟩ := hI.pqDist cur hcur
      exact (hBat (key cur) t ht).2
    unfold processCur
    by_cases hst : staleB σ.dist cur = true
    · rw [if_pos hst]
      exact hBat
    · rw [if_neg hst]
      by_cases hd : cur.r = P.N - 1 ∧ cur.c = P.M - 1
      · rw [if_pos hd]
        exact hBat
      · rw [if_neg hd]
        have RS := relaxAll_relStep P cur { σ with pq := rest }
        intro k t ht
        rcases RS.dist_new k t ht with h0 | ⟨q, hq, hk, htq, d, hdd, hmv⟩
        · exact hBat k t h0
        · obtain ⟨h1, h2⟩ := moveTo_battery hB hK hcb hmv
          subst hk
          exact ⟨h1, h2⟩

theorem loopF_batInv {P : Params} (hB : 0 ≤ P.B) (hK : 0 ≤ P.K) :
    ∀ {n : Nat} {σ σf : SS}, Inv P σ → BatInv P σ →
    loopF P n σ = some σf → BatInv P σf := by
  intro n
  induction n with
  | zero => intro σ σf _ _ h; simp [loopF] at h
  | succ m ih =>
    intro σ σf hI hBat h
    unfold loopF at h
    cases hs : stepF P σ with
    | none =>
      rw [hs] at h
      simp only [Option.some.injEq] at h
      subst h
      exact hBat
    | some σ1 =>
      rw [hs] at h
      exact ih (stepF_inv hI hs) (stepF_batInv hB hK hI hBat hs) h

/-! ### Generic small-step evaluation lemmas -/

theorem alookup_singleton {α : Type} (k : Key) (v : α) : alookup [(k, v)] k = some v := by
  simp [alookup_cons]

theorem loopF_nil {P : Params} {σ : SS} (h : σ.pq = []) (n : Nat) :
    loopF P (n + 1) σ = some σ := by
  unfold loopF stepF
  rw [h]
  rfl

/-- Full evaluation of the solver on any 1×1 grid: the single initial
state is popped, found to be the destination, and reported with the
initial time `height[0][0]` and battery `B` — whatever the recharge
set. -/
theorem solve_one_by_one (h B K : Int) (R : List (Int × Int)) (fuel : Nat) :
    solve ⟨1, 1, B, K, [[h]], R⟩ (fuel + 2) =
      some (Result.success h [⟨0, 0, B, h, h⟩]) := by
  set P : Params := ⟨1, 1, B, K, [[h]], R⟩ with hP
  have hs : startAlt P = h := rfl
  have hkey : key (initSt P) = (0, 0, B, h) := rfl
  have hlook : alookup (initSS P).dist (key (initSt P)) = some h := by
    show alookup [(key (initSt P), startAlt P)] (key (initSt P)) = some h
    rw [alookup_singleton, hs]
  have hstale : staleB (initSS P).dist (initSt P) = false := by
    unfold staleB
    rw [hlook]
    simp [show (initSt P).time = h from rfl]
  have h1 : stepF P (initSS P) = some
      { pq := [], dist := (initSS P).dist, parent := [], best := some (h, key (initSt P)) } := by
    unfold stepF
    rw [show popMin (initSS P).pq = some (initSt P, []) from rfl]
    unfold processCur
    dsimp only
    rw [hstale]
    simp only [Bool.false_eq_true, if_false]
    rw [if_pos (by constructor <;> rfl : (initSt P).r = P.N - 1 ∧ (initSt P).c = P.M - 1)]
    rfl
  have hloop : loopF P (fuel + 2) (initSS P) = some
      { pq := [], dist := (initSS P).dist, parent := [], best := some (h, key (initSt P)) } := by
    show loopF P (fuel + 1 + 1) (initSS P) = _
    unfold loopF
    rw [h1]
    exact loopF_nil rfl fuel
  have hrec : reconstruct (initSS P).dist [] (fuel + 2) (key (initSt P)) =
      some [⟨0, 0, B, h, h⟩] := by
    show reconstruct (initSS P).dist [] (fuel + 1 + 1) (key (initSt P)) = _
    unfold reconstruct
    rw [if_pos (by constructor <;> rfl :
      (key (initSt P)).1 = 0 ∧ (key (initSt P)).2.1 = 0)]
    rw [hlook]
    rfl
  unfold solve
  rw [hloop]
  simp only
  rw [hrec]
  rfl

/-! ### Concrete inputs used by witnesses and counterexamples -/

/-- The spec's climb-cost scenario: `N=1, M=2, B=10, K=0`,
heights `[[0,5]]`, no stations. -/
def exClimb : Params := ⟨1, 2, 10, 0, [[0, 5]], []⟩

/-- A 1×1 grid of height 5 (battery 3): exposes the `startAlt` initial
time. -/
def exTiny : Params := ⟨1, 1, 3, 0, [[5]], []⟩

/-- A 1×2 grid whose start building is taller than zero: exposes the
`startAlt` offset in the reported time. -/
def exOffset : Params := ⟨1, 2, 10, 0, [[3, 0]], []⟩

/-- The spec's unreachability scenario: 2×1 grid, `B = 0`. -/
def exStuck : Params := ⟨2, 1, 0, 0, [[0], [0]], []⟩

/-- The spec's flat scenario: 2×2 zeros, `B=10`, `K=0`. -/
def exFlat : Params := ⟨2, 2, 10, 0, [[0, 0], [0, 0]], []⟩

/-- A grid whose unique optimal route must return to the recharge
station at the origin: heights `[[0,5,5,5]]`, `B = 7`, `K = 7`,
station at cell `(0,0)`. -/
def exRevisit : Params := ⟨1, 4, 7, 7, [[0, 5, 5, 5]], [(0, 0)]⟩

/-- A station one step away from the origin. -/
def exStation : Params := ⟨1, 2, 10, 3, [[0, 0]], [(0, 1)]⟩

/-! ### Claim C2 -/

/-- C2 (counterexample): on the 1×1 grid of height 5 the program
reports time 5 — not 0 — and the single path record carries arrival
time 5: the initial queue entry is pushed with time `height[0][0]`,
not 0. -/
theorem c2_counterexample :
    solve exTiny 10 = some (Result.success 5 [⟨0, 0, 3, 5, 5⟩]) ∧ (5 : Int) ≠ 0 :=
  ⟨by decide, by decide⟩

/-- C2 (amended): for every 1×1 grid the program reports minimum time
`height[0][0]` and a path of exactly one record, the origin state
`(0, 0, B, height[0][0])`, with arrival time `height[0][0]` — for any
battery capacity, recharge amount and recharge set. -/
theorem c2_one_by_one (h B K : Int) (R : List (Int × Int)) (fuel : Nat) :
    solve ⟨1, 1, B, K, [[h]], R⟩ (fuel + 2) =
      some (Result.success h [⟨0, 0, B, h, h⟩]) :=
  solve_one_by_one h B K R fuel

/-! ### Claim C3 -/

/-- C3: the per-move cost model.  For every generated move: if the
target cell is taller than the current altitude, the move takes
`1 + (h − a)` time, deducts `1 + (h − a)` battery (before any
recharge), and the altitude becomes `h`; otherwise the move takes
exactly 1 time, 1 battery, and the altitude is unchanged.  And on the
spec's concrete scenario (`1×2`, heights `[[0,5]]`, `B=10`, `K=0`) the
program reports time 6 with final battery 4 and final altitude 5. -/
theorem c3_cost_model :
    (∀ (P : Params) (cur : St) (d : Int × Int) (ns : St), moveTo P cur d = some ns →
      ((hgt P.height ns.r ns.c ≤ cur.altitude →
          ns.time = cur.time + 1 ∧ ns.altitude = cur.altitude ∧
          ns.battery = (if (ns.r, ns.c) ∈ P.recharge
            then min P.B (cur.battery - 1 + P.K) else cur.battery - 1)) ∧
       (cur.altitude < hgt P.height ns.r ns.c →
          ns.time = cur.time + (1 + (hgt P.height ns.r ns.c - cur.altitude)) ∧
          ns.altitude = hgt P.height ns.r ns.c ∧
          ns.battery = (if (ns.r, ns.c) ∈ P.recharge
            then min P.B (cur.battery - (1 + (hgt P.height ns.r ns.c - cur.altitude)) + P.K)
            else cur.battery - (1 + (hgt P.height ns.r ns.c - cur.altitude)))))) ∧
    solve exClimb 10 = some (Result.success 6 [⟨0, 0, 10, 0, 0⟩, ⟨0, 1, 4, 5, 6⟩]) := by
  constructor
  · intro P cur d ns h
    obtain ⟨-, -, rfl⟩ := moveTo_eq_some_iff.mp h
    dsimp only
    constructor
    · intro hle
      have hnlt : ¬cur.altitude < hgt P.height (cur.r + d.1) (cur.c + d.2) := not_lt.mpr hle
      have hcl : climbOf P cur d = 0 := by unfold climbOf; rw [if_neg hnlt]
      rw [hcl, if_neg hnlt]
      refine ⟨by ring, rfl, ?_⟩
      rw [show cur.battery - 1 - 0 = cur.battery - 1 from by ring]
    · intro hlt
      have hcl : climbOf P cur d = hgt P.height (cur.r + d.1) (cur.c + d.2) - cur.altitude := by
        unfold climbOf; rw [if_pos hlt]
      rw [hcl, if_pos hlt]
      refine ⟨by ring, rfl, ?_⟩
      rw [show cur.battery - 1 - (hgt P.height (cur.r + d.1) (cur.c + d.2) - cur.altitude) =
        cur.battery - (1 + (hgt P.height (cur.r + d.1) (cur.c + d.2) - cur.altitude)) from by ring]
  · decide

/-- C3 witness: the cost model instantiated on the concrete climb move
of the scenario. -/
theorem c3_witness :
    moveTo exClimb ⟨0, 0, 0, 10, 0⟩ (0, 1) = some ⟨6, 0, 1, 4, 5⟩ ∧
    (⟨6, 0, 1, 4, 5⟩ : St).time = (⟨0, 0, 0, 10, 0⟩ : St).time + (1 + (5 - 0)) ∧
    (⟨6, 0, 1, 4, 5⟩ : St).altitude = 5 := by
  have h := (c3_cost_model.1 exClimb ⟨0, 0, 0, 10, 0⟩ (0, 1) ⟨6, 0, 1, 4, 5⟩ (by decide)).2
    (by decide)
  exact ⟨by decide, by simpa using h.1, h.2.1⟩

/-! ### Claim C5 -/

/-- A generated move into a station cell stores `min(B, b' + K)` for
the post-cost pre-recharge battery `b'`, which the generation check
already forced non-negative. -/
theorem moveTo_station_battery {P : Params} {cur : St} {d : Int × Int} {ns : St}
    (h : moveTo P cur d = some ns) (hmem : (ns.r, ns.c) ∈ P.recharge) :
    ns.battery = min P.B (cur.battery - 1 - climbOf P cur d + P.K) ∧
    0 ≤ cur.battery - 1 - climbOf P cur d := by
  obtain ⟨-, hbat, rfl⟩ := moveTo_eq_some_iff.mp h
  dsimp only at hmem ⊢
  rw [if_pos hmem]
  exact ⟨rfl, hbat⟩

/-- A move whose pre-recharge battery would go negative is never
generated, however much a station at the target could restore. -/
theorem moveTo_neg_battery_none (P : Params) (cur : St) (d : Int × Int)
    (hneg : cur.battery - 1 - climbOf P cur d < 0) : moveTo P cur d = none := by
  unfold moveTo
  dsimp only
  by_cases hb : cur.r + d.1 < 0 ∨ P.N ≤ cur.r + d.1 ∨ cur.c + d.2 < 0 ∨ P.M ≤ cur.c + d.2
  · rw [if_pos hb]
  · rw [if_neg hb, if_pos (show cur.battery - 1 -
      (if cur.altitude < hgt P.height (cur.r + d.1) (cur.c + d.2)
        then hgt P.height (cur.r + d.1) (cur.c + d.2) - cur.altitude else 0) < 0 from hneg)]

/-- C5: recharge semantics.  For every generated move landing on a
recharge cell, the stored battery is `min(B, b' + K)` where `b'` is
the battery after the full move cost, and the move was only generated
because the pre-recharge battery `b'` is non-negative; moreover a move
whose pre-recharge battery would be negative is never generated, no
matter what the recharge would restore. -/
theorem c5_recharge :
    (∀ (P : Params) (cur : St) (d : Int × Int) (ns : St), moveTo P cur d = some ns →
      (ns.r, ns.c) ∈ P.recharge →
      ns.battery = min P.B (cur.battery - 1 - climbOf P cur d + P.K) ∧
      0 ≤ cur.battery - 1 - climbOf P cur d) ∧
    (∀ (P : Params) (cur : St) (d : Int × Int),
      cur.battery - 1 - climbOf P cur d < 0 → moveTo P cur d = none) :=
  ⟨fun _ _ _ _ h hmem => moveTo_station_battery h hmem,
   fun P cur d hneg => moveTo_neg_battery_none P cur d hneg⟩

/-- C5 witness: a move into the station cell of `exStation` stores
`min(10, 9 + 3) = 10`, and with an empty battery the same move is
rejected on the pre-recharge value. -/
theorem c5_witness :
    moveTo exStation ⟨0, 0, 0, 10, 0⟩ (0, 1) = some ⟨1, 0, 1, 10, 0⟩ ∧
    (⟨1, 0, 1, 10, 0⟩ : St).battery = min 10 (10 - 1 - 0 + 3) ∧
    moveTo exStation ⟨0, 0, 0, 0, 0⟩ (0, 1) = none := by
  refine ⟨by decide, ?_, ?_⟩
  · have h := (c5_recharge.1 exStation ⟨0, 0, 0, 10, 0⟩ (0, 1) ⟨1, 0, 1, 10, 0⟩
      (by decide) (by decide)).1
    simpa using h
  · exact c5_recharge.2 exStation ⟨0, 0, 0, 0, 0⟩ (0, 1) (by decide)

/-! ### Claim C9 -/

/-- C9 (counterexample): the token stream `1 2 5 0` has only the four
header tokens — fewer than the `4 + N·M + 1 = 7` the input format
requires — yet the program still produces (non-empty) output, because
only the header read is checked and every later failed read silently
yields 0. -/
theorem c9_counterexample :
    (runTokens [1, 2, 5, 0] 100).isSome = true ∧
    runTokens [1, 2, 5, 0] 100 ≠ some "" ∧
    ([(1 : Int), 2, 5, 0].length < 4 + 1 * 2 + 1) := by
  refine ⟨by decide, ?_, by decide⟩
  intro h
  exact absurd (h.symm.trans (by decide : runTokens [1, 2, 5, 0] 100 =
    some ("\x7b\n  \"time\": 1,\n  \"path\": [\n    \x7b\"row\":0,\"col\":0,\"battery\":5,\"altitude\":0,\"time\":0\x7d,\n    \x7b\"row\":0,\"col\":1,\"battery\":4,\"altitude\":0,\"time\":1\x7d\n  ]\n\x7d\n"))) (by decide)

/-- C9 (amended): only when fewer than the four header tokens
`N M B K` are present does the program exit without producing any
output; with a complete header, missing later tokens are read as 0 and
the run proceeds normally. -/
theorem c9_header_only (tokens : List Int) (fuel : Nat) (h : tokens.length < 4) :
    runTokens tokens fuel = some "" := by
  match tokens with
  | [] => rfl
  | [a] => rfl
  | [a, b] => rfl
  | [a, b, c] => rfl
  | a :: b :: c :: d :: t => simp at h; omega

/-- C9 witness: a three-token stream produces no output. -/
theorem c9_witness : runTokens [3, 3, 5] 100 = some "" :=
  c9_header_only [3, 3, 5] 100 (by decide)

/-! ### Claim C10 -/

/-- C10: the initial state's battery is exactly `B` and the initial
search state does not depend on the recharge set at all — a station at
the origin never affects the start state; it only recharges moves that
re-enter `(0,0)` later.  On a 1×1 grid with a station at the origin
the single reported record still carries battery `B`. -/
theorem c10_origin_station :
    (∀ (N M B K : Int) (g : List (List Int)) (R : List (Int × Int)),
      initSS ⟨N, M, B, K, g, R⟩ = initSS ⟨N, M, B, K, g, []⟩ ∧
      (initSt ⟨N, M, B, K, g, R⟩).battery = B) ∧
    (∀ (P : Params) (cur : St) (d : Int × Int) (ns : St), moveTo P cur d = some ns →
      ns.r = 0 → ns.c = 0 → (0, 0) ∈ P.recharge →
      ns.battery = min P.B (cur.battery - 1 - climbOf P cur d + P.K)) ∧
    (∀ (h B K : Int), solve ⟨1, 1, B, K, [[h]], [(0, 0)]⟩ 2 =
      some (Result.success h [⟨0, 0, B, h, h⟩])) := by
  refine ⟨fun N M B K g R => ⟨rfl, rfl⟩, ?_, fun h B K => solve_one_by_one h B K [(0, 0)] 0⟩
  intro P cur d ns h hr hc hmem
  obtain ⟨hm, -⟩ := moveTo_station_battery h (by rw [hr, hc]; exact hmem)
  exact hm

/-- C10 witness: with a station at the origin (grid `[[5]]`, `B = 3`,
`K = 9`) the origin record still has battery 3, and a re-entry into
`(0,0)` is recharged. -/
theorem c10_witness :
    solve ⟨1, 1, 3, 9, [[5]], [(0, 0)]⟩ 2 = some (Result.success 5 [⟨0, 0, 3, 5, 5⟩]) ∧
    moveTo ⟨1, 2, 9, 4, [[0, 0]], [(0, 0)]⟩ ⟨1, 0, 1, 5, 0⟩ (0, -1) = some ⟨2, 0, 0, 8, 0⟩ ∧
    (⟨2, 0, 0, 8, 0⟩ : St).battery = min 9 (5 - 1 - 0 + 4) := by
  refine ⟨c10_origin_station.2.2 5 3 9, by decide, ?_⟩
  have h := c10_origin_station.2.1 ⟨1, 2, 9, 4, [[0, 0]], [(0, 0)]⟩ ⟨1, 0, 1, 5, 0⟩ (0, -1)
    ⟨2, 0, 0, 8, 0⟩ (by decide) rfl rfl (by decide)
  simpa using h

/-! ### Claim C4 -/

/-- From the 2×1 stuck grid no move is ever possible. -/
theorem reaches_exStuck {s : St} (h : Reaches exStuck s) : s = initSt exStuck := by
  induction h with
  | refl => rfl
  | tail hr hd hmv ih =>
    rw [ih] at hmv
    simp only [dirs, List.mem_cons] at hd
    rcases hd with rfl | rfl | rfl | rfl | h0
    · rw [show moveTo exStuck (initSt exStuck) (0, 1) = none from by decide] at hmv
      cases hmv
    · rw [show moveTo exStuck (initSt exStuck) (0, -1) = none from by decide] at hmv
      cases hmv
    · rw [show moveTo exStuck (initSt exStuck) (1, 0) = none from by decide] at hmv
      cases hmv
    · rw [show moveTo exStuck (initSt exStuck) (-1, 0) = none from by decide] at hmv
      cases hmv
    · simp at h0

/-- C4: whenever no battery-respecting path reaches the destination
cell, any normally terminating run reports `unreachable`, whose entire
rendered output is the literal text `-1` plus newline — no `time`, no
`path`, no partial path. -/
theorem c4_unreachable_output (P : Params) (fuel : Nat) (r : Result)
    (hs : solve P fuel = some r) (hnr : ¬∃ s, Reaches P s ∧ atDest P s) :
    r = Result.unreachable ∧ render r = "-1\n" := by
  unfold solve at hs
  split at hs
  · exact absurd hs (by simp)
  · rename_i σf hloop
    have hIf := (loopF_inv (inv_initSS P) hloop).1
    cases hb : σf.best with
    | none =>
      rw [hb] at hs
      simp only [Option.some.injEq] at hs
      subst hs
      exact ⟨rfl, rfl⟩
    | some pr =>
      obtain ⟨bt, bk⟩ := pr
      obtain ⟨hr, hdk, -⟩ := hIf.bestReach bt bk hb
      exact absurd ⟨stOf bt bk, hr, hdk⟩ hnr

/-- C4 witness: the spec's 2×1 grid with `B = 0` renders exactly
`-1‹newline›`. -/
theorem c4_witness : (solve exStuck 10).map render = some "-1\n" := by
  have h := c4_unreachable_output exStuck 10 Result.unreachable (by decide) (by
    rintro ⟨s, hr, hd⟩
    rw [reaches_exStuck hr] at hd
    exact absurd hd.1 (by decide))
  rw [show solve exStuck 10 = some Result.unreachable from by decide]
  rw [Option.map_some', h.2]

/-! ### Claim C7 -/

/-- One loop iteration as a relation on search states. -/
def StepRel (P : Params) (a b : SS) : Prop := stepF P a = some b

/-- Search states actually visited by the loop. -/
def SearchReach (P : Params) (σ : SS) : Prop :=
  Relation.ReflTransGen (StepRel P) (initSS P) σ

theorem searchReach_inv {P : Params} {σ : SS} (h : SearchReach P σ) :
    Inv P σ ∧ (0 ≤ P.B → 0 ≤ P.K → BatInv P σ) := by
  induction h with
  | refl => exact ⟨inv_initSS P, fun hB _ => batInv_initSS hB⟩
  | tail h1 h2 ih =>
    exact ⟨stepF_inv ih.1 h2, fun hB hK => stepF_batInv hB hK ih.1 (ih.2 hB hK) h2⟩

/-- C7: with `B ≥ 0` and `K ≥ 0`, every state in the queue of any
search state the loop visits keeps `0 ≤ battery ≤ B`, and so does every
record of any successfully output path. -/
theorem c7_battery_bounds (P : Params) (hB : 0 ≤ P.B) (hK : 0 ≤ P.K) :
    (∀ σ, SearchReach P σ → ∀ q ∈ σ.pq, 0 ≤ q.battery ∧ q.battery ≤ P.B) ∧
    (∀ (fuel : Nat) (t : Int) (p : List PathRec), solve P fuel = some (Result.success t p) →
      ∀ x ∈ p, 0 ≤ x.battery ∧ x.battery ≤ P.B) := by
  constructor
  · intro σ hσ q hq
    obtain ⟨hI, hBat⟩ := searchReach_inv hσ
    obtain ⟨t, ht, -⟩ := hI.pqDist q hq
    exact hBat hB hK (key q) t ht
  · intro fuel t p hs x hx
    obtain ⟨σf, bk, l, hloop, hb, hrec, rfl⟩ := solve_success_elim hs
    have hIf := (loopF_inv (inv_initSS P) hloop).1
    have hBat := loopF_batInv hB hK (inv_initSS P) (batInv_initSS hB) hloop
    obtain ⟨-, -, tb, htb⟩ := hIf.bestReach t bk hb
    obtain ⟨-, -, -, hmemb⟩ := reconstruct_props hIf.parentEdge hIf.parentDom fuel bk l
      ⟨tb, htb⟩ hrec
    obtain ⟨tx, htx, -⟩ := hmemb x (List.mem_reverse.mp hx)
    exact hBat (recKey x) tx htx

/-- C7 witness: the final record of the flat 2×2 run has battery 8,
inside `[0, 10]`. -/
theorem c7_witness :
    0 ≤ (⟨1, 1, 8, 0, 2⟩ : PathRec).battery ∧ (⟨1, 1, 8, 0, 2⟩ : PathRec).battery ≤ exFlat.B :=
  (c7_battery_bounds exFlat (by decide) (by decide)).2 100 2
    [⟨0, 0, 10, 0, 0⟩, ⟨0, 1, 9, 0, 1⟩, ⟨1, 1, 8, 0, 2⟩] (by decide)
    ⟨1, 1, 8, 0, 2⟩ (by decide)

/-! ### Claim C6 -/

/-- C6 (counterexample): on `exRevisit` the unique optimal route must
climb the tower, return to the origin station to refill, and go; the
reconstruction loop stops at the *last* visit to cell `(0,0)`, so the
output path's first record has altitude 5 — not
`height[0][0] = 0`. -/
theorem c6_counterexample :
    solve exRevisit 60 = some (Result.success 10
      [⟨0, 0, 7, 5, 7⟩, ⟨0, 1, 6, 5, 8⟩, ⟨0, 2, 5, 5, 9⟩, ⟨0, 3, 4, 5, 10⟩]) ∧
    hgt exRevisit.height 0 0 = 0 ∧ (5 : Int) ≠ 0 :=
  ⟨by decide, by decide, by decide⟩

/-- C6 (amended): every successfully output path starts at a record in
cell `(0,0)` (though not necessarily the initial state: when the
optimal route revisits the origin, the first record can carry a larger
altitude than `height[0][0]`), consecutive records follow the climb
rule — the altitude is reset to the target cell's height exactly when
that height exceeds the current altitude — and hence altitudes are
monotonically non-decreasing along the path. -/
theorem c6_path_altitude (P : Params) (fuel : Nat) (t : Int) (p : List PathRec)
    (hs : solve P fuel = some (Result.success t p)) :
    (∃ x xs, p = x :: xs ∧ x.r = 0 ∧ x.c = 0) ∧
    List.Chain' (fun a b => b.altitude =
      (if a.altitude < hgt P.height b.r b.c then hgt P.height b.r b.c else a.altitude)) p ∧
    List.Chain' (fun a b => a.altitude ≤ b.altitude) p := by
  obtain ⟨σf, bk, l, hloop, hb, hrec, rfl⟩ := solve_success_elim hs
  have hIf := (loopF_inv (inv_initSS P) hloop).1
  obtain ⟨-, -, tb, htb⟩ := hIf.bestReach t bk hb
  obtain ⟨⟨y, ys, hly, -⟩, hlast, hchain, -⟩ :=
    reconstruct_props hIf.parentEdge hIf.parentDom fuel bk l ⟨tb, htb⟩ hrec
  have hchainrev : List.Chain' (fun a b => EdgeRel P (recKey a) (recKey b)) l.reverse := by
    rw [List.chain'_reverse]
    exact hchain
  refine ⟨?_, ?_, ?_⟩
  · have hpne : l.reverse ≠ [] := by rw [hly]; simp
    obtain ⟨x, xs, hx⟩ := List.exists_cons_of_ne_nil hpne
    have hhead : l.reverse.head? = some x := by rw [hx]; rfl
    rw [List.head?_reverse] at hhead
    obtain ⟨h1, h2⟩ := hlast x hhead
    exact ⟨x, xs, hx, h1, h2⟩
  · exact hchainrev.imp (fun a b h => (edgeRel_props h).2.1)
  · exact hchainrev.imp (fun a b h => (edgeRel_props h).2.2.1)

/-- C6 witness: the amended statement instantiated on the flat 2×2
scenario. -/
theorem c6_witness :
    List.Chain' (fun a b => a.altitude ≤ b.altitude)
      [(⟨0, 0, 10, 0, 0⟩ : PathRec), ⟨0, 1, 9, 0, 1⟩, ⟨1, 1, 8, 0, 2⟩] :=
  (c6_path_altitude exFlat 100 2 [⟨0, 0, 10, 0, 0⟩, ⟨0, 1, 9, 0, 1⟩, ⟨1, 1, 8, 0, 2⟩]
    (by decide)).2.2

/-! ### Claim C1 -/

theorem moveTo_time_add {P : Params} {s : St} {d : Int × Int} {ns : St}
    (h : moveTo P s d = some ns) (δ : Int) :
    moveTo P ⟨s.time + δ, s.r, s.c, s.battery, s.altitude⟩ d =
      some ⟨ns.time + δ, ns.r, ns.c, ns.battery, ns.altitude⟩ := by
  have h2 := moveTo_shift h (s.time + δ)
  have ht : ns.time = s.time + 1 + climbOf P s d := by
    obtain ⟨-, -, hns⟩ := moveTo_eq_some_iff.mp h
    rw [hns]
  rw [show s.time + δ + 1 + climbOf P s d = ns.time + δ from by omega] at h2
  exact h2

/-- A valid path shifted uniformly in time is still a valid path. -/
theorem reachesFrom_shift {P : Params} {s0 s : St} (h : ReachesFrom P s0 s) (δ : Int) :
    ReachesFrom P ⟨s0.time + δ, s0.r, s0.c, s0.battery, s0.altitude⟩
      ⟨s.time + δ, s.r, s.c, s.battery, s.altitude⟩ := by
  induction h with
  | refl => exact ReachesFrom.refl
  | tail hr hd hmv ih => exact ReachesFrom.tail ih hd (moveTo_time_add hmv δ)

theorem solve_unreachable_elim {P : Params} {fuel : Nat}
    (h : solve P fuel = some Result.unreachable) :
    ∃ σf, loopF P fuel (initSS P) = some σf ∧ σf.best = none := by
  unfold solve at h
  split at h
  · exact absurd h (by simp)
  · rename_i σf hloop
    split at h
    · rename_i hb
      exact ⟨σf, hloop, hb⟩
    · split at h
      · exact absurd h (by simp)
      · exact absurd h (by simp)

/-- The zero-time start state of the specification: `(0,0)` with full
battery and altitude `height[0][0]`, at accumulated cost `0`. -/
def zeroStart (P : Params) : St := ⟨0, 0, 0, P.B, startAlt P⟩

/-- C1 (amended): if any battery-respecting path reaches the
destination cell, a normally terminating run outputs `success`, its
`time` equals `height[0][0]` plus the minimum accumulated move cost
over all battery-respecting paths from `(0,0,B,height[0][0])` to the
destination cell, and the output path runs from cell `(0,0)` to the
destination cell by unit grid steps. -/
theorem c1_time_minimality (P : Params) (fuel : Nat) (r : Result)
    (hs : solve P fuel = some r) (hreach : ∃ s, Reaches P s ∧ atDest P s) :
    ∃ t p, r = Result.success t p ∧
      (∃ s, ReachesFrom P (zeroStart P) s ∧ atDest P s ∧ t = startAlt P + s.time) ∧
      (∀ s, ReachesFrom P (zeroStart P) s → atDest P s → t ≤ startAlt P + s.time) ∧
      (∃ x xs, p = x :: xs ∧ x.r = 0 ∧ x.c = 0) ∧
      (∀ x, p.getLast? = some x → x.r = P.N - 1 ∧ x.c = P.M - 1) ∧
      List.Chain' (fun a b => (b.r - a.r).natAbs + (b.c - a.c).natAbs = 1) p := by
  cases r with
  | unreachable =>
    obtain ⟨σf, hloop, hbnone⟩ := solve_unreachable_elim hs
    obtain ⟨hIf, hpq⟩ := loopF_inv (inv_initSS P) hloop
    obtain ⟨s, hr, hd⟩ := hreach
    obtain ⟨bt, bk, hbsome, -⟩ := dest_min hIf hpq hr hd
    rw [hbnone] at hbsome
    cases hbsome
  | success t p =>
    obtain ⟨σf, bk, l, hloop, hb, hrec, rfl⟩ := solve_success_elim hs
    obtain ⟨hIf, hpq⟩ := loopF_inv (inv_initSS P) hloop
    obtain ⟨hrbest, hdk, tb, htb⟩ := hIf.bestReach t bk hb
    refine ⟨t, l.reverse, rfl, ?_, ?_, ?_, ?_, ?_⟩
    · have hz := reachesFrom_shift hrbest (-(startAlt P))
      have hsrc : (⟨(initSt P).time + -(startAlt P), (initSt P).r, (initSt P).c,
          (initSt P).battery, (initSt P).altitude⟩ : St) = zeroStart P := by
        show (⟨startAlt P + -(startAlt P), 0, 0, P.B, startAlt P⟩ : St) = _
        unfold zeroStart
        norm_num
      rw [hsrc] at hz
      refine ⟨⟨(stOf t bk).time + -(startAlt P), (stOf t bk).r, (stOf t bk).c,
        (stOf t bk).battery, (stOf t bk).altitude⟩, hz, hdk, ?_⟩
      show t = startAlt P + (t + -(startAlt P))
      ring
    · intro s hz hd
      have hup := reachesFrom_shift hz (startAlt P)
      have hsrc : (⟨(zeroStart P).time + startAlt P, (zeroStart P).r, (zeroStart P).c,
          (zeroStart P).battery, (zeroStart P).altitude⟩ : St) = initSt P := by
        show (⟨0 + startAlt P, 0, 0, P.B, startAlt P⟩ : St) = _
        unfold initSt
        norm_num
      rw [hsrc] at hup
      obtain ⟨bt2, bk2, hbsome, hble⟩ := dest_min hIf hpq hup hd
      rw [hb] at hbsome
      simp only [Option.some.injEq, Prod.mk.injEq] at hbsome
      have htt : bt2 = t := hbsome.1.symm
      have hble2 : bt2 ≤ s.time + startAlt P := hble
      omega
    · obtain ⟨-, -, tb2, htb2⟩ := hIf.bestReach t bk hb
      obtain ⟨⟨y, ys, hly, -⟩, hlast, -, -⟩ :=
        reconstruct_props hIf.parentEdge hIf.parentDom fuel bk l ⟨tb2, htb2⟩ hrec
      have hpne : l.reverse ≠ [] := by rw [hly]; simp
      obtain ⟨x, xs, hx⟩ := List.exists_cons_of_ne_nil hpne
      have hhead : l.reverse.head? = some x := by rw [hx]; rfl
      rw [List.head?_reverse] at hhead
      obtain ⟨h1, h2⟩ := hlast x hhead
      exact ⟨x, xs, hx, h1, h2⟩
    · intro x hx
      obtain ⟨⟨y, ys, hly, hky⟩, -, -, -⟩ :=
        reconstruct_props hIf.parentEdge hIf.parentDom fuel bk l ⟨tb, htb⟩ hrec
      rw [List.getLast?_reverse] at hx
      rw [hly] at hx
      simp only [List.head?_cons, Option.some.injEq] at hx
      rw [← hx]
      refine ⟨?_, ?_⟩
      · show (recKey y).1 = P.N - 1
        rw [hky]
        exact hdk.1
      · show (recKey y).2.1 = P.M - 1
        rw [hky]
        exact hdk.2
    · obtain ⟨-, -, hchain, -⟩ :=
        reconstruct_props hIf.parentEdge hIf.parentDom fuel bk l ⟨tb, htb⟩ hrec
      have hchainrev : List.Chain' (fun a b => EdgeRel P (recKey a) (recKey b)) l.reverse := by
        rw [List.chain'_reverse]
        exact hchain
      exact hchainrev.imp (fun a b h => (edgeRel_props h).1)

/-- C1 (counterexample): on `exOffset` (heights `[[3,0]]`) a single
move of accumulated cost 1 reaches the destination from the start
state, yet the program reports time 4 — the reported time carries the
extra `height[0][0] = 3` that the initial queue entry was seeded
with. -/
theorem c1_counterexample :
    solve exOffset 20 = some (Result.success 4 [⟨0, 0, 10, 3, 3⟩, ⟨0, 1, 9, 3, 4⟩]) ∧
    ReachesFrom exOffset (zeroStart exOffset) ⟨1, 0, 1, 9, 3⟩ ∧
    atDest exOffset ⟨1, 0, 1, 9, 3⟩ ∧
    ¬((4 : Int) ≤ 1) := by
  refine ⟨by decide, ?_, ⟨by decide, by decide⟩, by decide⟩
  exact @ReachesFrom.tail exOffset (zeroStart exOffset) (zeroStart exOffset) (0, 1)
    ⟨1, 0, 1, 9, 3⟩ ReachesFrom.refl (by decide) (by decide)

/-- C1 witness: the amended statement applied to the flat 2×2 scenario
(destination reachable in two moves). -/
theorem c1_witness :
    ∃ x xs, ([(⟨0, 0, 10, 0, 0⟩ : PathRec), ⟨0, 1, 9, 0, 1⟩, ⟨1, 1, 8, 0, 2⟩] : List PathRec) =
      x :: xs ∧ x.r = 0 ∧ x.c = 0 := by
  have hreach : ∃ s, Reaches exFlat s ∧ atDest exFlat s := by
    refine ⟨⟨2, 1, 1, 8, 0⟩, ?_, ⟨by decide, by decide⟩⟩
    exact @ReachesFrom.tail exFlat (initSt exFlat) ⟨1, 1, 0, 9, 0⟩ (0, 1) ⟨2, 1, 1, 8, 0⟩
      (@ReachesFrom.tail exFlat (initSt exFlat) (initSt exFlat) (1, 0) ⟨1, 1, 0, 9, 0⟩
        ReachesFrom.refl (by decide) (by decide)) (by decide) (by decide)
  have h := c1_time_minimality exFlat 100
    (Result.success 2 [⟨0, 0, 10, 0, 0⟩, ⟨0, 1, 9, 0, 1⟩, ⟨1, 1, 8, 0, 2⟩]) (by decide) hreach
  obtain ⟨t, p, heq, -, -, hhead, -, -⟩ := h
  simp only [Result.success.injEq] at heq
  obtain ⟨-, rfl⟩ := heq
  exact hhead

/-! ### Claim C8 -/

/-- Modelled from the spec: the alternative control flow that
"may terminate at first destination pop for efficiency without
changing observable output" — identical to the loop of `main` except
that the first non-stale pop of a destination-cell state immediately
returns that state's time.  `some (some t)` = destination reached with
time `t`, `some none` = queue exhausted (unreachable), `none` = out of
fuel. -/
def loopE (P : Params) : Nat → SS → Option (Option Int)
  | 0, _ => none
  | n + 1, σ =>
    match popMin σ.pq with
    | none => some none
    | some (cur, rest) =>
      if staleB σ.dist cur then loopE P n { σ with pq := rest }
      else if cur.r = P.N - 1 ∧ cur.c = P.M - 1 then some (some cur.time)
      else loopE P n (relaxAll P cur { σ with pq := rest })

theorem loopE_succ_eq (P : Params) (n : Nat) (σ : SS) :
    loopE P (n + 1) σ =
      match popMin σ.pq with
      | none => some none
      | some (cur, rest) =>
        if staleB σ.dist cur then loopE P n { σ with pq := rest }
        else if cur.r = P.N - 1 ∧ cur.c = P.M - 1 then some (some cur.time)
        else loopE P n (relaxAll P cur { σ with pq := rest }) := rfl

/-- Once `best` is at most every queued time, one step keeps it so and
keeps `best` itself unchanged. -/
theorem stepF_best_stable {P : Params} {σ σ1 : SS} {bt : Int} {bk : Key}
    (h : stepF P σ = some σ1) (hb : σ.best = some (bt, bk))
    (hq : ∀ q ∈ σ.pq, bt ≤ q.time) :
    σ1.best = some (bt, bk) ∧ ∀ q ∈ σ1.pq, bt ≤ q.time := by
  unfold stepF at h
  cases hpop : popMin σ.pq with
  | none => rw [hpop] at h; simp at h
  | some pr =>
    obtain ⟨cur, rest⟩ := pr
    rw [hpop] at h
    simp only [Option.some.injEq] at h
    subst h
    have hcur : cur ∈ σ.pq := popMin_mem hpop
    have hrest : ∀ q ∈ rest, q ∈ σ.pq := fun q hq2 => (popMin_mem_iff hpop).mpr (Or.inr hq2)
    unfold processCur
    by_cases hst : staleB σ.dist cur = true
    · rw [if_pos hst]
      exact ⟨hb, fun q hq2 => hq q (hrest q hq2)⟩
    · rw [if_neg hst]
      by_cases hd : cur.r = P.N - 1 ∧ cur.c = P.M - 1
      · rw [if_pos hd]
        refine ⟨?_, fun q hq2 => hq q (hrest q hq2)⟩
        show updateBest σ.best cur.time (key cur) = some (bt, bk)
        rw [hb]
        show (if cur.time < bt then some (cur.time, key cur) else some (bt, bk)) = some (bt, bk)
        rw [if_neg (not_lt.mpr (hq cur hcur))]
      · rw [if_neg hd]
        have RS := relaxAll_relStep P cur { σ with pq := rest }
        refine ⟨by rw [RS.best_eq]; exact hb, ?_⟩
        intro q hq2
        rcases RS.pq_new q hq2 with h0 | ⟨d, hd2, hmv⟩
        · exact hq q (hrest q h0)
        · exact (hq cur hcur).trans (moveTo_time_lt hmv).le

theorem loopF_best_stable {P : Params} : ∀ {n : Nat} {σ σf : SS} {bt : Int} {bk : Key},
    loopF P n σ = some σf → σ.best = some (bt, bk) → (∀ q ∈ σ.pq, bt ≤ q.time) →
    σf.best = some (bt, bk) := by
  intro n
  induction n with
  | zero => intro σ σf bt bk h _ _; simp [loopF] at h
  | succ m ih =>
    intro σ σf bt bk h hb hq
    unfold loopF at h
    cases hs : stepF P σ with
    | none =>
      rw [hs] at h
      simp only [Option.some.injEq] at h
      subst h
      exact hb
    | some σ1 =>
      rw [hs] at h
      obtain ⟨hb1, hq1⟩ := stepF_best_stable hs hb hq
      exact ih h hb1 hq1

/-- Draining the queue and stopping at the first live destination pop
report the same result. -/
theorem loopF_loopE {P : Params} : ∀ {n : Nat} {σ σf : SS},
    loopF P n σ = some σf → σ.best = none →
    ∃ e, loopE P n σ = some e ∧ σf.best.map Prod.fst = e := by
  intro n
  induction n with
  | zero => intro σ σf h _; simp [loopF] at h
  | succ m ih =>
    intro σ σf h hb
    unfold loopF at h
    rw [loopE_succ_eq]
    cases hpop : popMin σ.pq with
    | none =>
      have hs : stepF P σ = none := by unfold stepF; rw [hpop]
      rw [hs] at h
      simp only [Option.some.injEq] at h
      subst h
      exact ⟨none, rfl, by rw [hb]; rfl⟩
    | some pr =>
      obtain ⟨cur, rest⟩ := pr
      have hs : stepF P σ = some (processCur P cur { σ with pq := rest }) := by
        unfold stepF; rw [hpop]
      rw [hs] at h
      dsimp only
      by_cases hst : staleB σ.dist cur = true
      · rw [if_pos hst]
        have hσ1 : processCur P cur { σ with pq := rest } = { σ with pq := rest } := by
          unfold processCur; rw [if_pos hst]
        rw [hσ1] at h
        exact ih h hb
      · rw [if_neg hst]
        by_cases hd : cur.r = P.N - 1 ∧ cur.c = P.M - 1
        · rw [if_pos hd]
          have hσ1 : processCur P cur { σ with pq := rest } =
              { σ with pq := rest, best := some (cur.time, key cur) } := by
            unfold processCur
            rw [if_neg hst, if_pos hd]
            show SS.mk rest σ.dist σ.parent (updateBest σ.best cur.time (key cur)) =
              SS.mk rest σ.dist σ.parent (some (cur.time, key cur))
            rw [hb]
            rfl
          rw [hσ1] at h
          have hbf := loopF_best_stable h rfl (fun q hq2 => popMin_min hpop q hq2)
          exact ⟨some cur.time, rfl, by rw [hbf]; rfl⟩
        · rw [if_neg hd]
          have hσ1 : processCur P cur { σ with pq := rest } =
              relaxAll P cur { σ with pq := rest } := by
            unfold processCur; rw [if_neg hst, if_neg hd]
          rw [hσ1] at h
          have hbm : (relaxAll P cur { σ with pq := rest }).best = none := by
            rw [(relaxAll_relStep P cur { σ with pq := rest }).best_eq]
            exact hb
          exact ih h hbm

/-- C8: continuing to drain the priority queue after the destination is
first popped is observationally equivalent to stopping at the first
non-stale destination pop: whenever the drain-everything loop of
`main` terminates, the early-stopping control flow terminates with
exactly the reported minimum time (`none` = unreachable in both). -/
theorem c8_early_stop_equiv (P : Params) (fuel : Nat) (σf : SS)
    (h : loopF P fuel (initSS P) = some σf) :
    ∃ e, loopE P fuel (initSS P) = some e ∧ σf.best.map Prod.fst = e :=
  loopF_loopE h rfl

/-- C8 witness: on the flat 2×2 scenario the early-stopping flow
reports time 2, the same as the draining flow. -/
theorem c8_witness : loopE exFlat 100 (initSS exFlat) = some (some 2) := by
  have hs : solve exFlat 100 = some (Result.success 2
      [⟨0, 0, 10, 0, 0⟩, ⟨0, 1, 9, 0, 1⟩, ⟨1, 1, 8, 0, 2⟩]) := by decide
  obtain ⟨σf, bk, l, hloop, hb, -, -⟩ := solve_success_elim hs
  obtain ⟨e, he, hm⟩ := c8_early_stop_equiv exFlat 100 σf hloop
  rw [hb] at hm
  simp only [Option.map_some'] at hm
  rw [← hm] at he
  exact he

end Drone
